import Mathlib

/-!
Verification of the code-property-graph pipeline core.

This file shallowly embeds the parts of the pipeline that the checked
properties are about: the in-memory graph store (part_017), the
position/function/definition indices (ast_visitor.go), defer ordering
(ast_visitor.go), module resolution (part_017), metrics (metrics.go,
callgraph.go), the type-relationship extractor (types.go), the CDG
extractor (cdg.go), the VTA call-graph builder (callgraph.go), the
evaluation-order derivation (db.go) and the channel-flow follower
(part_009).  Go maps become association lists, Go slices become lists,
and SSA values become indices into a finite universe.
-/

set_option maxRecDepth 4000

namespace CPGSpec

/-- Primitive property values stored in the open property bags
(`map[string]any` in the source restricted to what the pipeline stores). -/
inductive PVal where
  | s (v : String)
  | n (v : Nat)
  | b (v : Bool)
deriving DecidableEq

/-- Property bag: association list from key to primitive value. -/
abbrev Props := List (String × PVal)

/-- Node of the code property graph (part_017, `type Node struct`). -/
structure Node where
  id : String
  kind : String
  name : String := ""
  file : String := ""
  line : Nat := 0
  col : Nat := 0
  endLine : Nat := 0
  pkg : String := ""
  parentFunction : String := ""
  typeInfo : String := ""
  props : Props := []
deriving DecidableEq

/-- Edge of the code property graph (part_017, `type Edge struct`). -/
structure Edge where
  source : String
  target : String
  kind : String
  props : Props := []
deriving DecidableEq

/-- Metrics record for one function (part_017, `type Metrics struct`).
All counters are natural numbers; the Go code never stores negatives. -/
structure Metrics where
  functionID : String
  cyclomaticComplexity : Nat := 0
  fanIn : Nat := 0
  fanOut : Nat := 0
  loc : Nat := 0
  numParams : Nat := 0
deriving DecidableEq

/-- In-memory accumulator (part_017, `type CPG struct`).  The `nodeSeen` /
`edgeSeen` Go maps become membership lists; `Metrics` becomes an
association list from function id to record. -/
structure CPG where
  nodes : List Node := []
  edges : List Edge := []
  nodeSeen : List String := []
  edgeSeen : List (String × String × String) := []
  metrics : List (String × Metrics) := []
deriving DecidableEq

/-- Empty store, as produced by `NewCPG`. -/
def NewCPG : CPG := {}

/-- Source translation of `CPG.AddNode` (part_017): append a node,
deduplicating by id, first wins. -/
def AddNode (g : CPG) (n : Node) : CPG :=
  if n.id ∈ g.nodeSeen then g
  else { g with nodeSeen := n.id :: g.nodeSeen, nodes := g.nodes ++ [n] }

/-- Source translation of `CPG.AddEdge` (part_017): append an edge if no
edge with the same (source, target, kind) exists. -/
def AddEdge (g : CPG) (e : Edge) : CPG :=
  if (e.source, e.target, e.kind) ∈ g.edgeSeen then g
  else { g with edgeSeen := (e.source, e.target, e.kind) :: g.edgeSeen,
                edges := g.edges ++ [e] }

/-- Position-index key, mirroring `fmt.Sprintf` with file:line:col. -/
def lookupKey (file : String) (line col : Nat) : String :=
  file ++ ":" ++ toString line ++ ":" ++ toString col

/-- PosLookup (ast_visitor.go): map from position key to node id. -/
structure PosLookup where
  m : List (String × String) := []
deriving DecidableEq

/-- Source translation of `PosLookup.Set`: first-wins, a later set on a
present key is ignored. -/
def PosLookup.set (pl : PosLookup) (file : String) (line col : Nat) (id : String) :
    PosLookup :=
  let key := lookupKey file line col
  if (pl.m.lookup key).isSome then pl else ⟨(key, id) :: pl.m⟩

/-- PosLookup.Get: the zero value "" is returned for missing keys. -/
def PosLookup.get (pl : PosLookup) (file : String) (line col : Nat) : String :=
  (pl.m.lookup (lookupKey file line col)).getD ""

/-- FuncLookup (ast_visitor.go): map from position key to function node id. -/
structure FuncLookup where
  m : List (String × String) := []
deriving DecidableEq

/-- Source translation of `FuncLookup.Set`: unconditional store (the most
recent binding is the visible one, modelled by prepending). -/
def FuncLookup.set (fl : FuncLookup) (file : String) (line col : Nat) (id : String) :
    FuncLookup :=
  ⟨(lookupKey file line col, id) :: fl.m⟩

/-- FuncLookup.Get with zero-value default. -/
def FuncLookup.get (fl : FuncLookup) (file : String) (line col : Nat) : String :=
  (fl.m.lookup (lookupKey file line col)).getD ""

/-- DefLookup (ast_visitor.go): map from a type-checker object to a node
id.  Objects are opaque; they are modelled by natural-number tokens, with
`Option` capturing the nil object. -/
structure DefLookup where
  m : List (Nat × String) := []
deriving DecidableEq

/-- Source translation of `DefLookup.Set`: ignores nil objects, otherwise
stores unconditionally. -/
def DefLookup.set (dl : DefLookup) (obj : Option Nat) (id : String) : DefLookup :=
  match obj with
  | none => dl
  | some o => ⟨(o, id) :: dl.m⟩

/-- DefLookup.Get with zero-value default, "" for a nil object. -/
def DefLookup.get (dl : DefLookup) (obj : Option Nat) : String :=
  match obj with
  | none => ""
  | some o => (dl.m.lookup o).getD ""

/-- Source translation of `emitDeferOrdering` (ast_visitor.go): the defer
ids collected in source order are chained in reverse with defer_order
edges; the loop runs i from len-1 down to 1 and gives the edge from
defer i to defer i-1 the exec_order value len - i.  The iteration counter
k of the model corresponds to (len-1) - i. -/
def emitDeferOrdering (deferIDs : List String) : List Edge :=
  if deferIDs.length < 2 then []
  else
    (List.range (deferIDs.length - 1)).map (fun k =>
      let i := deferIDs.length - 1 - k
      { source := deferIDs.getD i ""
        target := deferIDs.getD (i - 1) ""
        kind := "defer_order"
        props := [("exec_order", PVal.n (deferIDs.length - i))] })

/-- Model of strings.HasPrefix on character lists (structural, so that
concrete instances evaluate by kernel reduction). -/
def hasPrefix (s pre : String) : Bool :=
  pre.data.isPrefixOf s.data

/-- Model of dropping the first n characters of a string (for
strings.CutPrefix remainder extraction). -/
def dropChars (s : String) (n : Nat) : String :=
  String.mk (s.data.drop n)

/-- Helper for splitting a path on the separator character. -/
def splitPathAux : List Char → List Char → List String
  | [], acc => [String.mk acc.reverse]
  | c :: cs, acc =>
      if c = '/' then String.mk acc.reverse :: splitPathAux cs []
      else splitPathAux cs (c :: acc)

/-- Split a slash-separated path into components (strings.Split with the
path separator). -/
def splitPath (s : String) : List String :=
  splitPathAux s.data []

/-- Join path components with the separator. -/
def joinPath : List String → String
  | [] => ""
  | [c] => c
  | c :: cs => c ++ "/" ++ joinPath cs

/-- Length of the longest common component prefix of two paths. -/
def commonLen : List String → List String → Nat
  | a :: as, b :: bs => if a = b then commonLen as bs + 1 else 0
  | _, _ => 0

/-- Model of filepath.Rel restricted to cleaned, non-root absolute paths
(the only inputs the pipeline passes it: module directories and compiled
Go file paths): climb out of the non-shared part of the base with ..
components, then descend into the target; equal paths give ".". -/
def relPath (base targ : String) : String :=
  let b := splitPath base
  let t := splitPath targ
  let c := commonLen b t
  let comps := List.replicate (b.length - c) ".." ++ t.drop c
  if comps = [] then "." else joinPath comps

/-- ModuleInfo (part_017): module path, absolute directory, id prefix
(the source's Prefix field). -/
structure ModuleInfo where
  modPath : String
  dir : String
  pfx : String
deriving DecidableEq

/-- ModuleSet (part_017): the modules under analysis. -/
structure ModuleSet where
  modules : List ModuleInfo
deriving DecidableEq

/-- Source translation of `ModuleSet.IsKnownPkg`. -/
def IsKnownPkg (ms : ModuleSet) (pkgPath : String) : Bool :=
  ms.modules.any (fun m => pkgPath == m.modPath || hasPrefix pkgPath (m.modPath ++ "/"))

/-- Accumulator of the `RelPkg` loop. -/
structure RelPkgSt where
  bestResult : String
  bestModLen : Int
  matched : Bool
deriving DecidableEq

/-- Source translation of `ModuleSet.RelPkg`: strip the module path (the
longest matching one) and prepend the module prefix; "main" for the
module path itself of an unprefixed module; unmatched paths are returned
unchanged. -/
def RelPkg (ms : ModuleSet) (fullPath : String) : String :=
  let st := ms.modules.foldl (fun (st : RelPkgSt) (m : ModuleInfo) =>
    if fullPath = m.modPath ∧ (m.modPath.length : Int) > st.bestModLen then
      { bestResult := if m.pfx = "" then "main" else m.pfx
        bestModLen := (m.modPath.length : Int), matched := true }
    else if hasPrefix fullPath (m.modPath ++ "/")
        ∧ (m.modPath.length : Int) > st.bestModLen then
      let rel := dropChars fullPath (m.modPath.length + 1)
      { bestResult := if m.pfx = "" then rel else m.pfx ++ "/" ++ rel
        bestModLen := (m.modPath.length : Int), matched := true }
    else st) ⟨"", -1, false⟩
  if st.matched then st.bestResult else fullPath

/-- Accumulator of the `RelFile` loop. -/
structure RelFileSt where
  bestRel : String
  bestPfx : String
  bestDirLen : Int
deriving DecidableEq

/-- One iteration of the `RelFile` loop body: skip the module when the
relative path climbs out of its directory, otherwise keep the module
with the longest directory seen so far. -/
def relFileStep (absPath : String) (st : RelFileSt) (m : ModuleInfo) : RelFileSt :=
  let rel := relPath m.dir absPath
  if hasPrefix rel ".." then st
  else if (m.dir.length : Int) > st.bestDirLen then ⟨rel, m.pfx, (m.dir.length : Int)⟩
  else st

/-- Source translation of `ModuleSet.RelFile`: resolve an absolute file
path against the known module with the longest directory whose relative
path does not start with "..", prefixing with the module prefix when one
is set; "" when no module matches. -/
def RelFile (ms : ModuleSet) (absPath : String) : String :=
  let st := ms.modules.foldl (relFileStep absPath) ⟨"", "", -1⟩
  if st.bestDirLen < 0 then ""
  else if st.bestPfx = "" then st.bestRel
  else st.bestPfx ++ "/" ++ st.bestRel

/-- Whether the RelFile loop accepts module m for path p (the source's
matching test: the relative path does not begin with ".."). -/
def dirMatches (p : String) (m : ModuleInfo) : Bool :=
  ! hasPrefix (relPath m.dir p) ".."

/-- Concrete module set for the RelFile counterexample: two nested
modules rooted at /a and /a/b. -/
def msC9 : ModuleSet :=
  ⟨[⟨"example.com/a", "/a", ""⟩, ⟨"example.com/a/b", "/a/b", ""⟩]⟩

/-- Binary operator tags relevant to decision counting (metrics.go). -/
inductive BinOp where
  | land
  | lor
  | otherOp
deriving DecidableEq

/-- Abstracted syntax tree shape for the decision-point inspection in
ComputeMetrics: only the node kinds the inspection distinguishes are
tagged; everything else is `other`. -/
inductive GoAst where
  | ifStmt (children : List GoAst)
  | forStmt (children : List GoAst)
  | rangeStmt (children : List GoAst)
  | caseClause (children : List GoAst)
  | commClause (children : List GoAst)
  | binaryExpr (op : BinOp) (children : List GoAst)
  | other (children : List GoAst)

mutual
/-- Decision points visited by the `ast.Inspect` in ComputeMetrics: each
if / for / range / case clause / comm clause counts one, a short-circuit
logical operator counts one. -/
def countDecisions : GoAst → Nat
  | .ifStmt cs => 1 + countDecisionsList cs
  | .forStmt cs => 1 + countDecisionsList cs
  | .rangeStmt cs => 1 + countDecisionsList cs
  | .caseClause cs => 1 + countDecisionsList cs
  | .commClause cs => 1 + countDecisionsList cs
  | .binaryExpr op cs =>
      (if op = BinOp.land ∨ op = BinOp.lor then 1 else 0) + countDecisionsList cs
  | .other cs => countDecisionsList cs

/-- Decision points of a list of subtrees. -/
def countDecisionsList : List GoAst → Nat
  | [] => 0
  | a :: as => countDecisions a + countDecisionsList as
end

/-- One field of a parameter list with its number of names (0 = unnamed
slot). -/
structure ParamField where
  names : Nat
deriving DecidableEq

/-- Function signature shape used by countParams; `params = none` models
a nil parameter list. -/
structure FuncType where
  params : Option (List ParamField)
deriving DecidableEq

/-- Source translation of `countParams` (metrics.go): one per unnamed
slot, else the number of names. -/
def countParams : Option FuncType → Nat
  | none => 0
  | some ft =>
      match ft.params with
      | none => 0
      | some fields => fields.foldl (fun n f => if f.names = 0 then n + 1 else n + f.names) 0

/-- One function occurrence (FuncDecl or FuncLit) seen by the metrics
walk, together with its file's resolution and skip status. -/
structure FuncOcc where
  relFile : String
  skipFile : Bool
  line : Nat
  col : Nat
  body : Option GoAst
  endLine : Nat
  funcType : Option FuncType

/-- Overwriting insertion into the metrics map (Go map assignment). -/
def metricsSet (ms : List (String × Metrics)) (k : String) (v : Metrics) :
    List (String × Metrics) :=
  (k, v) :: ms

/-- Per-occurrence body of the ComputeMetrics walk: skip unresolvable or
skipped files and unknown positions, otherwise store cyclomatic
complexity (1 + decision points), LOC and parameter count. -/
def metricsStep (fl : FuncLookup) (g : CPG) (fo : FuncOcc) : CPG :=
  if fo.relFile = "" ∨ fo.skipFile then g
  else
    let funcID := fl.get fo.relFile fo.line fo.col
    if funcID = "" then g
    else
      let complexity := 1 + (match fo.body with
        | none => 0
        | some b => countDecisions b)
      let m : Metrics :=
        { functionID := funcID
          cyclomaticComplexity := complexity
          fanIn := 0
          fanOut := 0
          loc := fo.endLine - fo.line + 1
          numParams := countParams fo.funcType }
      { g with metrics := metricsSet g.metrics funcID m }

/-- Source translation of `ComputeMetrics` (metrics.go): run the walk
body over every function occurrence. -/
def ComputeMetrics (funcs : List FuncOcc) (fl : FuncLookup) (g : CPG) : CPG :=
  funcs.foldl (metricsStep fl) g

/-- Call edges of the store. -/
def callEdges (g : CPG) : List Edge :=
  g.edges.filter (fun e => e.kind == "call")

/-- Fan-in of a node id: number of call edges targeting it. -/
def fanInCount (g : CPG) (t : String) : Nat :=
  ((callEdges g).filter (fun e => e.target == t)).length

/-- Fan-out of a node id: number of call edges leaving it. -/
def fanOutCount (g : CPG) (s : String) : Nat :=
  ((callEdges g).filter (fun e => e.source == s)).length

/-- Ids with a self-referencing call edge. -/
def recursiveIds (g : CPG) : List String :=
  ((callEdges g).filter (fun e => e.source == e.target)).map (fun e => e.source)

/-- Overwriting insertion into a property bag (Go map assignment). -/
def propsSet (ps : Props) (k : String) (v : PVal) : Props :=
  (k, v) :: ps

/-- Minimal metrics record created by the trailing loops of
ComputeFanInOut: only fan-in/fan-out are populated. -/
def minRec (g : CPG) (k : String) : Metrics :=
  { functionID := k
    cyclomaticComplexity := 0
    fanIn := fanInCount g k
    fanOut := fanOutCount g k
    loc := 0
    numParams := 0 }

/-- Fan-in/fan-out update applied to every existing metrics record. -/
def fanUpdate (g : CPG) (k : String) (m : Metrics) : Metrics :=
  { m with fanIn := fanInCount g k, fanOut := fanOutCount g k }

/-- Minimal-record insertion loop shared by the two trailing loops of
ComputeFanInOut: for each key without a metrics entry, create a record
carrying only fan-in/fan-out. -/
def insertMinimal (g : CPG) (keys : List String) (ms : List (String × Metrics)) :
    List (String × Metrics) :=
  keys.foldl (fun ms k =>
    if (ms.lookup k).isSome then ms else (k, minRec g k) :: ms) ms

/-- Source translation of `ComputeFanInOut` (callgraph.go): count call
edges per endpoint, mark recursive function nodes, update existing
metrics records, then create minimal records for call targets and
sources without one. -/
def ComputeFanInOut (g : CPG) : CPG :=
  let fanInKeys := ((callEdges g).map (fun e => e.target)).dedup
  let fanOutKeys := ((callEdges g).map (fun e => e.source)).dedup
  let nodes := g.nodes.map (fun n =>
    if n.kind == "function" && (recursiveIds g).contains n.id then
      { n with props := propsSet n.props "recursive" (PVal.b true) }
    else n)
  let ms1 := g.metrics.map (fun kv => (kv.1, fanUpdate g kv.1 kv.2))
  let ms2 := insertMinimal g fanInKeys ms1
  let ms3 := insertMinimal g fanOutKeys ms2
  { g with nodes := nodes, metrics := ms3 }

/-- Concrete graph for the C1 counterexample: one analyzed function that
calls one external stub function (as BuildCallGraph creates it). -/
def gC1 : CPG :=
  { nodes := [{ id := "main::f@f.go:1:1", kind := "function", name := "f" },
              { id := "ext::q.F", kind := "function", name := "F"
                props := [("external", PVal.b true), ("full_name", PVal.s "q.F")] }]
    edges := [{ source := "main::f@f.go:1:1", target := "ext::q.F", kind := "call" }]
    nodeSeen := ["main::f@f.go:1:1", "ext::q.F"]
    edgeSeen := [("main::f@f.go:1:1", "ext::q.F", "call")]
    metrics := [("main::f@f.go:1:1",
      { functionID := "main::f@f.go:1:1", cyclomaticComplexity := 1
        fanIn := 0, fanOut := 0, loc := 1, numParams := 0 })] }

/-- Source translation of `BlockID` (ids.go). -/
def BlockID (funcID : String) (index : Nat) : String :=
  funcID ++ "::bb" ++ toString index

/-- Reversed-CFG adjacency (cdg.go): original edge (i, j) becomes (j, i),
and the virtual exit points to every exit block; a basic-block CFG is a
list of successor-index lists. -/
def revAdjOf (blocks : List (List Nat)) (exits : List Nat) (j : Nat) : List Nat :=
  ((List.range blocks.length).flatMap (fun i =>
    (blocks.getD i []).filterMap (fun s => if s = j then some i else none)))
  ++ (if j = blocks.length then exits else [])

mutual
/-- Depth-first search of `reversePostorder` (cdg.go): mark the node,
visit unvisited neighbours, then append the node (postorder).  The state
is (visited, order); the fuel bounds the nesting depth and is chosen
larger than the node count. -/
def dfsAux (adj : Nat → List Nat) : Nat → Nat → List Nat × List Nat → List Nat × List Nat
  | 0, _, st => st
  | fuel + 1, node, st =>
      let st2 := dfsList adj fuel (adj node) (node :: st.1, st.2)
      (st2.1, st2.2 ++ [node])

/-- Neighbour loop of the depth-first search. -/
def dfsList (adj : Nat → List Nat) : Nat → List Nat → List Nat × List Nat → List Nat × List Nat
  | _, [], st => st
  | fuel, next :: rest, st =>
      if next ∈ st.1 then dfsList adj fuel rest st
      else dfsList adj fuel rest (dfsAux adj fuel next st)
end

/-- Source translation of `reversePostorder` (cdg.go). -/
def reversePostorder (adj : Nat → List Nat) (root : Nat) (total : Nat) : List Nat :=
  (dfsAux adj (total + 1) root ([], [])).2.reverse

/-- One climbing while-loop of `chkIntersect` (cdg.go): move a up the
tree while its reverse-postorder position exceeds that of b. -/
def climb (idom rpoPos : List Int) : Nat → Int → Int → Int
  | 0, a, _ => a
  | fuel + 1, a, b =>
      if rpoPos.getD a.toNat (-1) > rpoPos.getD b.toNat (-1) then
        climb idom rpoPos fuel (idom.getD a.toNat (-1)) b
      else a

/-- Source translation of `chkIntersect` (cdg.go): nearest common
ancestor in the dominator tree via alternating climbs. -/
def chkIntersect (idom rpoPos : List Int) : Nat → Int → Int → Int
  | 0, a, _ => a
  | fuel + 1, a, b =>
      if a = b then a
      else
        let a2 := climb idom rpoPos (fuel + 1) a b
        let b2 := climb idom rpoPos (fuel + 1) b a2
        chkIntersect idom rpoPos fuel a2 b2

/-- One pass of the CHK iteration (cdg.go): for every non-virtual node in
reverse postorder, intersect the processed predecessors. -/
def chkPass (rpo : List Nat) (revPreds : Nat → List Nat) (rpoPos : List Int)
    (vExit : Nat) (fuel : Nat) (st0 : List Int × Bool) : List Int × Bool :=
  rpo.foldl (fun st b =>
    if b = vExit then st
    else
      match (revPreds b).find? (fun p => st.1.getD p (-1) != -1) with
      | none => st
      | some first =>
          let newIdom := (revPreds b).foldl (fun (newIdom : Int) (p : Nat) =>
            if (p : Int) = newIdom ∨ st.1.getD p (-1) = -1 then newIdom
            else chkIntersect st.1 rpoPos fuel (p : Int) newIdom) (first : Int)
          if st.1.getD b (-1) ≠ newIdom then (st.1.set b newIdom, true) else st) st0

/-- Fixpoint loop of the CHK iteration: repeat passes while something
changed, bounded by fuel. -/
def chkLoop (rpo : List Nat) (revPreds : Nat → List Nat) (rpoPos : List Int)
    (vExit : Nat) : Nat → List Int → List Int
  | 0, idom => idom
  | fuel + 1, idom =>
      let st := chkPass rpo revPreds rpoPos vExit (rpo.length + 1) (idom, false)
      if st.2 then chkLoop rpo revPreds rpoPos vExit fuel st.1 else st.1

/-- Source translation of `postDominators` (cdg.go): the immediate
post-dominator of each block via the CHK algorithm on the reversed CFG
rooted at a virtual exit; a function with no exit block yields the
sentinel -1 everywhere. -/
def postDominators (blocks : List (List Nat)) : List Int :=
  let n := blocks.length
  let exits := (List.range n).filter (fun i => blocks.getD i [] = [])
  if exits = [] then List.replicate n (-1)
  else
    let total := n + 1
    let vExit := n
    let revAdj := revAdjOf blocks exits
    let rpo := reversePostorder revAdj vExit total
    let rpoPos : List Int := (List.range total).map (fun v =>
      match rpo.findIdx? (fun x => x == v) with
      | some i => (i : Int)
      | none => -1)
    let revPreds : Nat → List Nat := fun t =>
      (List.range total).flatMap (fun fr =>
        (revAdj fr).filterMap (fun t2 => if t2 = t then some fr else none))
    let idom0 := (List.replicate total (-1 : Int)).set vExit (vExit : Int)
    let idom := chkLoop rpo revPreds rpoPos vExit (total * total + 2) idom0
    (List.range n).map (fun i =>
      let d := idom.getD i (-1)
      if (n : Int) ≤ d ∨ d < 0 then -1 else d)

/-- Inner walk of the CDG emission loop (cdg.go): from successor v climb
the post-dominator tree, emitting an edge per visited node, stopping at
-1 or at the immediate post-dominator of the branching block. -/
def cdgWalk (ipdom : List Int) (funcID : String) (u : Nat) (stop : Int) :
    Nat → Int → List Edge
  | 0, _ => []
  | fuel + 1, w =>
      if w ≠ -1 ∧ w ≠ stop then
        { source := BlockID funcID u, target := BlockID funcID w.toNat, kind := "cdg" }
          :: cdgWalk ipdom funcID u stop fuel (ipdom.getD w.toNat (-1))
      else []

/-- The cdg edges ExtractCDG emits for one function (cdg.go lines
57-76): every branching block walks each successor up the
post-dominator tree. -/
def cdgEdgesOf (funcID : String) (blocks : List (List Nat)) : List Edge :=
  let ipdom := postDominators blocks
  (List.range blocks.length).flatMap (fun u =>
    if (blocks.getD u []).length < 2 then []
    else (blocks.getD u []).flatMap (fun v =>
      cdgWalk ipdom funcID u (ipdom.getD u (-1)) (blocks.length + 1) (v : Int)))

/-- The pdom edges ExtractCDG emits for one function (cdg.go lines
90-99): one edge per block whose immediate post-dominator is a real
block. -/
def pdomEdgesOf (funcID : String) (blocks : List (List Nat)) : List Edge :=
  let ipdom := postDominators blocks
  (List.range blocks.length).filterMap (fun i =>
    let d := ipdom.getD i (-1)
    if 0 ≤ d ∧ d < (blocks.length : Int) then
      some { source := BlockID funcID d.toNat, target := BlockID funcID i, kind := "pdom" }
    else none)

/-- CFG of an infinite loop containing a branch: entry bb0 to loop head
bb1, which branches to bb2 / bb3, both returning to bb1; no block has
zero successors. -/
def blocksC3 : List (List Nat) := [[1], [2, 3], [1], [1]]

/-- Source position as produced by the token file set. -/
structure Position where
  filename : String
  line : Nat
  col : Nat
deriving DecidableEq

/-- Result of a method-set lookup (types.go): the selection's index
depth (1 = direct method, more = promoted) and the position of the
selected concrete method object. -/
structure Sel where
  indexLen : Nat
  objPos : Position
deriving DecidableEq

/-- One interface method: name and declared position. -/
structure IfaceMethod where
  name : String
  pos : Position

/-- Interface type as the extractor sees it: CPG node id and method
list. -/
structure IfaceType where
  id : String
  methods : List IfaceMethod

/-- Concrete named type as the extractor sees it: CPG node id, the two
method-set lookup oracles (types.NewMethodSet over T and over a pointer
to T) and the two types.Implements oracle results for the interface
under consideration. -/
structure ConcreteType where
  id : String
  valueSet : String → Option Sel
  ptrSet : String → Option Sel
  implementsValue : Bool
  implementsPtr : Bool

/-- Per-interface-method body of the emitSatisfiesMethod inner loop
(types.go lines 187-215): skip promoted or missing methods and
unresolvable positions, otherwise emit one satisfies_method edge and
bump the local counter. -/
def satStep (ms : ModuleSet) (pl : PosLookup) (mset : String → Option Sel)
    (st : List Edge × Nat) (im : IfaceMethod) : List Edge × Nat :=
  match mset im.name with
  | none => st
  | some sel =>
      if sel.indexLen ≠ 1 then st
      else
        let cmFile := RelFile ms sel.objPos.filename
        if cmFile = "" then st
        else
          let cmID := pl.get cmFile sel.objPos.line sel.objPos.col
          let imFile := RelFile ms im.pos.filename
          if imFile = "" then st
          else
            let imID := pl.get imFile im.pos.line im.pos.col
            if cmID ≠ "" ∧ imID ≠ "" then
              (st.1 ++ [{ source := cmID, target := imID, kind := "satisfies_method" }],
               st.2 + 1)
            else st

/-- One method-set pass of emitSatisfiesMethod: edges emitted and the
localFound counter. -/
def satisfiesForBase (ms : ModuleSet) (pl : PosLookup) (mset : String → Option Sel)
    (methods : List IfaceMethod) : List Edge × Nat :=
  methods.foldl (satStep ms pl mset) ([], 0)

/-- Source translation of `emitSatisfiesMethod` (types.go): run the loop
for the value method set; if it emitted anything, stop, otherwise run it
again for the pointer method set. -/
def emitSatisfiesMethod (ms : ModuleSet) (pl : PosLookup) (c : ConcreteType)
    (iface : IfaceType) : List Edge :=
  let v := satisfiesForBase ms pl c.valueSet iface.methods
  if 0 < v.2 then v.1
  else
    let p := satisfiesForBase ms pl c.ptrSet iface.methods
    v.1 ++ p.1

/-- The implements / satisfies_method edges ExtractTypeRelationships
emits for one (concrete, interface) pair (types.go lines 103-123):
skip empty interfaces, emit when either the value or the pointer type
implements. -/
def processTypePair (ms : ModuleSet) (pl : PosLookup) (c : ConcreteType)
    (iface : IfaceType) : List Edge :=
  if iface.methods.length = 0 then []
  else if c.implementsValue || c.implementsPtr then
    { source := c.id, target := iface.id, kind := "implements" }
      :: emitSatisfiesMethod ms pl c iface
  else []

/-- The per-method emission decision, used to characterise the loop. -/
def satEdgeFor (ms : ModuleSet) (pl : PosLookup) (mset : String → Option Sel)
    (im : IfaceMethod) : Option Edge :=
  match mset im.name with
  | none => none
  | some sel =>
      if sel.indexLen ≠ 1 then none
      else
        let cmFile := RelFile ms sel.objPos.filename
        if cmFile = "" then none
        else
          let cmID := pl.get cmFile sel.objPos.line sel.objPos.col
          let imFile := RelFile ms im.pos.filename
          if imFile = "" then none
          else
            let imID := pl.get imFile im.pos.line im.pos.col
            if cmID ≠ "" ∧ imID ≠ "" then
              some { source := cmID, target := imID, kind := "satisfies_method" }
            else none

/-- C2 fixture: single module rooted at /m. -/
def msC2 : ModuleSet := ⟨[⟨"example.com/m", "/m", ""⟩]⟩

/-- C2 fixture: position index with the four relevant declarations. -/
def plC2 : PosLookup :=
  ⟨[("t.go:10:1", "T.F"), ("t.go:20:1", "T.G"),
    ("i.go:3:2", "I.F"), ("i.go:4:2", "I.G")]⟩

/-- C2 fixture: type T has value-receiver method F and pointer-receiver
method G, so only the pointer type implements the two-method
interface I. -/
def cC2 : ConcreteType :=
  { id := "T"
    valueSet := fun n => if n = "F" then some ⟨1, ⟨"/m/t.go", 10, 1⟩⟩ else none
    ptrSet := fun n =>
      if n = "F" then some ⟨1, ⟨"/m/t.go", 10, 1⟩⟩
      else if n = "G" then some ⟨1, ⟨"/m/t.go", 20, 1⟩⟩
      else none
    implementsValue := false
    implementsPtr := true }

/-- C2 fixture: interface I with methods F and G. -/
def iC2 : IfaceType :=
  { id := "I"
    methods := [⟨"F", ⟨"/m/i.go", 3, 2⟩⟩, ⟨"G", ⟨"/m/i.go", 4, 2⟩⟩] }

/-- SSA function as the call-graph builder sees it: package path (none
models a nil Pkg), declaration position (none models an invalid
position), display and qualified names, signature text, result count and
formal parameter positions. -/
structure SSAFunc where
  pkgPath : Option String
  pos : Option Position
  name : String
  funcStr : String
  sigStr : String
  numResults : Nat
  params : List (Option Position)

/-- Call site of a VTA edge: position, interface-invoke flag and actual
argument positions. -/
structure CallSite where
  pos : Option Position
  isInvoke : Bool
  args : List (Option Position)

/-- One edge of the VTA call graph (site may be nil). -/
structure VTAEdge where
  caller : SSAFunc
  callee : SSAFunc
  site : Option CallSite

/-- Source translation of `ssaFuncNodeID` (part_009): resolve the
function's declared position through the module set and the
FunctionIndex, with "" at every failure. -/
def ssaFuncNodeID (ms : ModuleSet) (fl : FuncLookup) (fn : SSAFunc) : String :=
  match fn.pos with
  | none => ""
  | some p =>
      let relFile := RelFile ms p.filename
      if relFile = "" then "" else fl.get relFile p.line p.col

/-- The param_in edges of one VTA edge (callgraph.go lines 122-164):
actual argument position to formal parameter position, skipping the
receiver slot of an interface invoke and any unresolvable position. -/
def paramInEdges (ms : ModuleSet) (pl : PosLookup) (args params : List (Option Position))
    (offset : Nat) : List Edge :=
  (List.range args.length).filterMap (fun i =>
    if i < offset then none
    else if ¬ (i - offset < params.length) then none
    else
      match args.getD i none with
      | none => none
      | some aPos =>
          let aFile := RelFile ms aPos.filename
          if aFile = "" then none
          else
            let argID := pl.get aFile aPos.line aPos.col
            if argID = "" then none
            else
              match params.getD (i - offset) none with
              | none => none
              | some pPos =>
                  let pFile := RelFile ms pPos.filename
                  if pFile = "" then none
                  else
                    let paramID := pl.get pFile pPos.line pPos.col
                    if paramID = "" then none
                    else some { source := argID, target := paramID, kind := "param_in"
                                props := [("index", PVal.n (i - offset))] })

/-- The edges BuildCallGraph emits for one VTA edge once caller and
callee ids are fixed: the call edge, then — when the site position
resolves — call_site, param_in, param_out and call_to_return edges. -/
def emitCallEdges (ms : ModuleSet) (pl : PosLookup) (callerID calleeID : String)
    (e : VTAEdge) : List Edge :=
  let props : Props := match e.site with
    | some s => if s.isInvoke then [("dynamic", PVal.b true)] else []
    | none => []
  let callEdge : Edge := { source := callerID, target := calleeID, kind := "call"
                           props := props }
  match e.site with
  | none => [callEdge]
  | some s =>
      match s.pos with
      | none => [callEdge]
      | some p =>
          let relFile := RelFile ms p.filename
          let siteID := if relFile ≠ "" then pl.get relFile p.line p.col else ""
          let callSiteEdges : List Edge :=
            if siteID ≠ "" then
              [{ source := siteID, target := calleeID, kind := "call_site"
                 props := props }]
            else []
          let offset := if s.isInvoke then 1 else 0
          let paramIn := paramInEdges ms pl s.args e.callee.params offset
          let paramOut : List Edge :=
            if siteID ≠ "" ∧ 0 < e.callee.numResults then
              [{ source := calleeID, target := siteID, kind := "param_out"
                 props := [("num_results", PVal.n e.callee.numResults)] }]
            else []
          let c2r : List Edge :=
            if siteID ≠ "" then
              [{ source := callerID, target := siteID, kind := "call_to_return" }]
            else []
          callEdge :: (callSiteEdges ++ paramIn ++ paramOut ++ c2r)

/-- Source translation of the per-edge body of `BuildCallGraph`
(callgraph.go lines 28-188): returns the nodes and edges added for this
VTA edge, given the already-created stub ids. -/
def processVTAEdge (ms : ModuleSet) (pl : PosLookup) (fl : FuncLookup)
    (stubs : List String) (e : VTAEdge) : List Node × List Edge :=
  let callerKnown := match e.caller.pkgPath with
    | none => false
    | some p => IsKnownPkg ms p
  let calleeKnown := match e.callee.pkgPath with
    | none => false
    | some p => IsKnownPkg ms p
  if ¬ (callerKnown = true ∨ calleeKnown = true) then ([], [])
  else
    let callerID := ssaFuncNodeID ms fl e.caller
    let calleeID := ssaFuncNodeID ms fl e.callee
    if callerID = "" then ([], [])
    else if calleeID = "" then
      match e.callee.pkgPath with
      | none => ([], [])
      | some pkgPath =>
          if calleeKnown then ([], [])
          else
            let stubID := "ext::" ++ e.callee.funcStr
            let nodes : List Node :=
              if stubs.contains stubID then []
              else
                [{ id := stubID, kind := "function", name := e.callee.name
                   pkg := RelPkg ms pkgPath, typeInfo := e.callee.sigStr
                   props := [("external", PVal.b true),
                             ("full_name", PVal.s e.callee.funcStr)] }]
            (nodes, emitCallEdges ms pl callerID stubID e)
    else ([], emitCallEdges ms pl callerID calleeID e)

/-- C5 fixture: FunctionIndex resolving the caller of the test edge. -/
def flC5 : FuncLookup := ⟨[("a.go:1:1", "main::A@a.go:1:1")]⟩

/-- C5 fixture: a VTA edge whose callee belongs to the in-scope module
but has no resolvable declaration (filtered file). -/
def eC5 : VTAEdge :=
  { caller := ⟨some "example.com/m", some ⟨"/m/a.go", 1, 1⟩, "A",
      "example.com/m.A", "func()", 0, []⟩
    callee := ⟨some "example.com/m/sub", none, "B",
      "example.com/m/sub.B", "func()", 0, []⟩
    site := none }

/-- Edge row of the relational store as computeEOG reads it: the only
property fields the SQL touches are the argument index
(json_extract properties.index, none = SQL NULL) and the final flag. -/
structure DBEdge where
  source : String
  target : String
  kind : String
  argIndex : Option Nat
  final : Bool
deriving DecidableEq

/-- SQL NULL-safe comparison dst.index = src.index + 1: false whenever
either side is NULL. -/
def consecIdx : Option Nat → Option Nat → Bool
  | some i, some j => j == i + 1
  | _, _ => false

/-- SQL NULL-safe comparison la.idx = MAX(...): false whenever either
side is NULL. -/
def idxEqMax : Option Nat → Option Nat → Bool
  | some i, some mx => i == mx
  | _, _ => false

/-- Step 1 of `computeEOG` (db.go lines 1038-1051): for every pair of
argument edges of the same call with consecutive indexes, one distinct
eog row from the earlier argument to the next; NULL indexes never
match. -/
def eogStep1 (es : List DBEdge) : List DBEdge :=
  (es.flatMap (fun src =>
    if src.kind == "argument" then
      es.filterMap (fun dst =>
        if dst.kind == "argument" && dst.source == src.source
            && consecIdx src.argIndex dst.argIndex then
          some { source := src.target, target := dst.target, kind := "eog"
                 argIndex := none, final := false }
        else none)
    else [])).dedup

/-- The MAX(index) subquery over the argument edges of one call; NULL
rows are ignored and an empty set yields NULL. -/
def maxArgIdx (es : List DBEdge) (call : String) : Option Nat :=
  (es.filterMap (fun e =>
    if e.kind == "argument" && e.source == call then e.argIndex else none)).max?

/-- Step 2 of `computeEOG` (db.go lines 1054-1071): for every argument
edge whose index equals the maximum index of its call, one distinct
final eog row from the argument to the call node. -/
def eogStep2 (es : List DBEdge) : List DBEdge :=
  (es.filterMap (fun e =>
    if e.kind == "argument" && idxEqMax e.argIndex (maxArgIdx es e.source) then
      some { source := e.target, target := e.source, kind := "eog"
             argIndex := none, final := true }
    else none)).dedup

/-- Source translation of `computeEOG` (db.go): step 2 runs on the table
after step 1 inserted its rows. -/
def computeEOG (es : List DBEdge) : List DBEdge :=
  let es1 := es ++ eogStep1 es
  es1 ++ eogStep2 es1

/-- C8 witness fixture: the argument rows of a two-argument call. -/
def esW8 : List DBEdge :=
  [⟨"CALL", "A0", "argument", some 0, false⟩,
   ⟨"CALL", "A1", "argument", some 1, false⟩]

/-- C8 witness fixture: the argument-target enumeration of esW8. -/
def targW8 : Nat → String := fun i => if i = 0 then "A0" else "A1"

/-- Tag of an ssa.UnOp relevant to the channel follower. -/
inductive UnOpTag where
  | arrow
  | mul
  | otherOp

/-- One state of an ssa.Select: the channel operand, the state position
and its direction. -/
structure SelectState (V : Type) where
  chan : V
  pos : Option Position
  isSend : Bool

/-- The ssa.CallCommon of a call / go / defer: invoke flag, the callee's
parameter values when it is a statically resolvable *ssa.Function
(none models a function-typed operand), and the argument values. -/
structure CallCommon (V : Type) where
  isInvoke : Bool
  staticCallee : Option (List V)
  args : List V

/-- The SSA instruction shapes chanFollowRefs distinguishes among the
referrers of a tracked value; value operands and instruction-as-value
results are indices into a finite value universe. -/
inductive SSAInstr (V : Type) where
  | send (chan : V) (pos : Option Position)
  | unop (tag : UnOpTag) (x : V) (result : V) (pos : Option Position)
  | selectInstr (states : List (SelectState V))
  | callInstr (common : CallCommon V) (result : V)
  | goInstr (common : CallCommon V)
  | deferInstr (common : CallCommon V)
  | phi (result : V)
  | makeClosure (fnOk : Bool) (bindings : List V) (freeVars : List V)
  | store (valStored : V) (addr : V)
  | otherValue (result : V)
  | nonValue

/-- A finite SSA value graph: every value has a (possibly nil) referrer
list; referrers may point anywhere in the universe, cycles included. -/
structure SSAGraph (n : Nat) where
  referrers : Fin n → Option (List (SSAInstr (Fin n)))

/-- Traversal state of the follower: the visited set and the collected
send / receive site ids. -/
structure ChanSt (n : Nat) where
  visited : Finset (Fin n)
  sends : List String
  receives : List String

/-- Source translation of `instrPos` (part_009): resolve an instruction
position to a module-relative file, skipping invalid or out-of-module
positions. -/
def instrPosResolve (ms : ModuleSet) (p : Option Position) :
    Option (String × Nat × Nat) :=
  match p with
  | none => none
  | some pos =>
      let rel := RelFile ms pos.filename
      if rel = "" then none else some (rel, pos.line, pos.col)

/-- Record a send site when its position resolves to a node id. -/
def recordSend {n : Nat} (ms : ModuleSet) (pl : PosLookup) (p : Option Position)
    (st : ChanSt n) : ChanSt n :=
  match instrPosResolve ms p with
  | none => st
  | some (rel, line, col) =>
      let id := pl.get rel line col
      if id = "" then st else { st with sends := st.sends ++ [id] }

/-- Record a receive site when its position resolves to a node id. -/
def recordRecv {n : Nat} (ms : ModuleSet) (pl : PosLookup) (p : Option Position)
    (st : ChanSt n) : ChanSt n :=
  match instrPosResolve ms p with
  | none => st
  | some (rel, line, col) =>
      let id := pl.get rel line col
      if id = "" then st else { st with receives := st.receives ++ [id] }

/-- Per-state body of the select case: record a send or receive when
the tracked channel is the state's operand. -/
def selStep {n : Nat} (ms : ModuleSet) (pl : PosLookup) (val : Fin n)
    (st : ChanSt n) (sel : SelectState (Fin n)) : ChanSt n :=
  if sel.chan = val then
    if sel.isSend then recordSend ms pl sel.pos st
    else recordRecv ms pl sel.pos st
  else st

mutual
/-- Source translation of `chanFollowRefs` (part_009): mark the value
visited, then process each referrer; the fuel bounds the depth of
nested follows and only decreases when a new value is expanded. -/
def chanFollowRefsF {n : Nat} (ms : ModuleSet) (pl : PosLookup) (g : SSAGraph n)
    (fuel : Nat) (val : Fin n) (st : ChanSt n) : Option (ChanSt n) :=
  match fuel with
  | 0 => none
  | fuel2 + 1 =>
      if val ∈ st.visited then some st
      else
        let st1 : ChanSt n := { st with visited := insert val st.visited }
        match g.referrers val with
        | none => some st1
        | some refs => goRefs ms pl g fuel2 val refs st1
termination_by (fuel, 0, 0)

/-- The referrer loop of chanFollowRefs. -/
def goRefs {n : Nat} (ms : ModuleSet) (pl : PosLookup) (g : SSAGraph n)
    (fuel : Nat) (val : Fin n) (refs : List (SSAInstr (Fin n))) (st : ChanSt n) :
    Option (ChanSt n) :=
  match refs with
  | [] => some st
  | r :: rest =>
      match handleRef ms pl g fuel val r st with
      | none => none
      | some st2 => goRefs ms pl g fuel val rest st2
termination_by (fuel, 4, refs.length)

/-- One referrer case of the chanFollowRefs switch. -/
def handleRef {n : Nat} (ms : ModuleSet) (pl : PosLookup) (g : SSAGraph n)
    (fuel : Nat) (val : Fin n) (r : SSAInstr (Fin n)) (st : ChanSt n) :
    Option (ChanSt n) :=
  match r with
  | .send chan pos =>
      if chan = val then some (recordSend ms pl pos st) else some st
  | .unop tag x result pos =>
      match tag with
      | .arrow => if x = val then some (recordRecv ms pl pos st) else some st
      | .mul => chanFollowRefsF ms pl g fuel result st
      | .otherOp => some st
  | .selectInstr states =>
      some (states.foldl (selStep ms pl val) st)
  | .callInstr common result =>
      match chanFollowCallArgsF ms pl g fuel val common st with
      | none => none
      | some st2 => chanFollowRefsF ms pl g fuel result st2
  | .goInstr common => chanFollowCallArgsF ms pl g fuel val common st
  | .deferInstr common => chanFollowCallArgsF ms pl g fuel val common st
  | .phi result => chanFollowRefsF ms pl g fuel result st
  | .makeClosure fnOk bindings freeVars =>
      if fnOk then goBindings ms pl g fuel val bindings freeVars 0 st else some st
  | .store valStored addr =>
      if valStored = val then chanFollowRefsF ms pl g fuel addr st else some st
  | .otherValue result => chanFollowRefsF ms pl g fuel result st
  | .nonValue => some st
termination_by (fuel, 3, 0)

/-- Source translation of `chanFollowCallArgs` (part_009): skip invoke
dispatch and indirect calls, else follow matching arguments into the
callee's parameters. -/
def chanFollowCallArgsF {n : Nat} (ms : ModuleSet) (pl : PosLookup) (g : SSAGraph n)
    (fuel : Nat) (val : Fin n) (common : CallCommon (Fin n)) (st : ChanSt n) :
    Option (ChanSt n) :=
  if common.isInvoke then some st
  else
    match common.staticCallee with
    | none => some st
    | some params => goArgs ms pl g fuel val common.args params 0 st
termination_by (fuel, 2, 0)

/-- The argument loop of chanFollowCallArgs. -/
def goArgs {n : Nat} (ms : ModuleSet) (pl : PosLookup) (g : SSAGraph n)
    (fuel : Nat) (val : Fin n) (args params : List (Fin n)) (i : Nat)
    (st : ChanSt n) : Option (ChanSt n) :=
  match args with
  | [] => some st
  | a :: rest =>
      if h : a = val ∧ i < params.length then
        match chanFollowRefsF ms pl g fuel (params.get ⟨i, h.2⟩) st with
        | none => none
        | some st2 => goArgs ms pl g fuel val rest params (i + 1) st2
      else goArgs ms pl g fuel val rest params (i + 1) st
termination_by (fuel, 1, args.length)

/-- The bindings loop of the MakeClosure case. -/
def goBindings {n : Nat} (ms : ModuleSet) (pl : PosLookup) (g : SSAGraph n)
    (fuel : Nat) (val : Fin n) (bindings freeVars : List (Fin n)) (i : Nat)
    (st : ChanSt n) : Option (ChanSt n) :=
  match bindings with
  | [] => some st
  | b :: rest =>
      if h : b = val ∧ i < freeVars.length then
        match chanFollowRefsF ms pl g fuel (freeVars.get ⟨i, h.2⟩) st with
        | none => none
        | some st2 => goBindings ms pl g fuel val rest freeVars (i + 1) st2
      else goBindings ms pl g fuel val rest freeVars (i + 1) st
termination_by (fuel, 1, bindings.length)
end

/-- Witness fixture for the amended metrics claim: one plain function. -/
def foW : FuncOcc :=
  { relFile := "f.go", skipFile := false, line := 1, col := 1
    body := none, endLine := 1, funcType := none }

/-- Witness fixture: FuncLookup knowing the one function of foW. -/
def flW : FuncLookup :=
  FuncLookup.set ⟨[]⟩ "f.go" 1 1 "main::f@f.go:1:1"

/-- C7: the in-memory graph store is idempotent under re-insertion.
`AddNode x; AddNode x` equals `AddNode x` (first node with a given id
wins) and `AddEdge (s,t,k,p); AddEdge (s,t,k,p2)` keeps only the first
edge; from an empty store the stored edge list is exactly the one edge
carrying `p`, with `p2` discarded. -/
theorem addNode_addEdge_first_wins (g : CPG) (x : Node) (s t k : String) (p p2 : Props) :
    AddNode (AddNode g x) x = AddNode g x
    ∧ AddEdge (AddEdge g ⟨s, t, k, p⟩) ⟨s, t, k, p2⟩ = AddEdge g ⟨s, t, k, p⟩
    ∧ (AddEdge (AddEdge NewCPG ⟨s, t, k, p⟩) ⟨s, t, k, p2⟩).edges = [⟨s, t, k, p⟩] := by
  refine ⟨?_, ?_, ?_⟩
  · by_cases h : x.id ∈ g.nodeSeen
    · simp [AddNode, h]
    · simp [AddNode, h]
  · by_cases h : (s, t, k) ∈ g.edgeSeen
    · simp [AddEdge, h]
    · simp [AddEdge, h]
  · simp [AddEdge, NewCPG]

/-- C4 counterexample: `FuncLookup.Set` does not have first-wins
semantics — re-setting the same position key replaces the stored id, so
the later lookup returns the second id rather than the first. -/
theorem funcLookup_second_set_overwrites :
    (FuncLookup.set (FuncLookup.set ⟨[]⟩ "f.go" 3 5 "id1") "f.go" 3 5 "id2").get "f.go" 3 5
      = "id2"
    ∧ "id2" ≠ "id1" := by
  exact ⟨by decide, by decide⟩

/-- C4 (amended): `PosLookup.Set` is first-wins (a second set of the same
key is a no-op on the whole index), while `FuncLookup.Set` and
`DefLookup.Set` store unconditionally, so a later set of the same key
with a different id wins. -/
theorem indices_set_semantics (pl : PosLookup) (fl : FuncLookup) (dl : DefLookup)
    (file : String) (line col : Nat) (a b : String) (o : Nat) :
    PosLookup.set (PosLookup.set pl file line col a) file line col b
      = PosLookup.set pl file line col a
    ∧ (FuncLookup.set (FuncLookup.set fl file line col a) file line col b).get file line col = b
    ∧ (DefLookup.set (DefLookup.set dl (some o) a) (some o) b).get (some o) = b := by
  refine ⟨?_, ?_, ?_⟩
  · by_cases h : (pl.m.lookup (lookupKey file line col)).isSome
    · simp [PosLookup.set, h]
    · simp [PosLookup.set, h, List.lookup]
  · simp [FuncLookup.set, FuncLookup.get, List.lookup]
  · simp [DefLookup.set, DefLookup.get, List.lookup]

/-- C6: for a function whose body holds defers D1..Dn (n at least 2) in
source order, the walker emits exactly the reverse chain: for the k-th
emitted edge (k from 0), source is defer n-1-k, target is defer n-2-k
(0-based), and exec_order is k+1 — equivalently edge D(i) to D(i-1) with
exec_order n-i+1 in the claim's 1-based numbering — and no emitted edge
has the first defer as its source. -/
theorem deferOrdering_reverse_chain (ds : List String) (h2 : 2 ≤ ds.length)
    (hnd : ds.Nodup) :
    emitDeferOrdering ds =
      (List.range (ds.length - 1)).map (fun k =>
        { source := ds.getD (ds.length - 1 - k) ""
          target := ds.getD (ds.length - 2 - k) ""
          kind := "defer_order"
          props := [("exec_order", PVal.n (k + 1))] })
    ∧ ∀ e ∈ emitDeferOrdering ds, e.source ≠ ds.getD 0 "" := by
  have hlt : ¬ ds.length < 2 := by omega
  constructor
  · simp only [emitDeferOrdering, if_neg hlt]
    refine List.map_congr_left ?_
    intro k hk
    rw [List.mem_range] at hk
    have h1 : ds.length - 1 - k - 1 = ds.length - 2 - k := by omega
    have h3 : ds.length - (ds.length - 1 - k) = k + 1 := by omega
    simp [h1, h3]
  · intro e he
    simp only [emitDeferOrdering, if_neg hlt] at he
    obtain ⟨k, hk, rfl⟩ := List.mem_map.mp he
    rw [List.mem_range] at hk
    intro hEq
    have hi : ds.length - 1 - k < ds.length := by omega
    have h0 : 0 < ds.length := by omega
    rw [List.getD_eq_getElem ds "" hi, List.getD_eq_getElem ds "" h0] at hEq
    have hidx := (List.Nodup.getElem_inj_iff hnd).mp hEq
    omega

/-- C6 witness: three defers D1, D2, D3. -/
theorem deferOrdering_reverse_chain_witness :
    emitDeferOrdering ["D1", "D2", "D3"] =
      [{ source := "D3", target := "D2", kind := "defer_order"
         props := [("exec_order", PVal.n 1)] },
       { source := "D2", target := "D1", kind := "defer_order"
         props := [("exec_order", PVal.n 2)] }]
    ∧ ("D3" : String) ≠ "D1" := by
  have h := deferOrdering_reverse_chain ["D1", "D2", "D3"] (by decide) (by decide)
  refine ⟨by rw [h.1]; decide, ?_⟩
  exact h.2 { source := "D3", target := "D2", kind := "defer_order"
              props := [("exec_order", PVal.n 1)] } (by decide)

/-- Helper: a joined path whose first component is ".." starts with "..". -/
theorem hasPrefix_dotdot_join (cs : List String) :
    hasPrefix (joinPath (".." :: cs)) ".." = true := by
  cases cs with
  | nil => decide
  | cons d ds =>
      show hasPrefix (".." ++ "/" ++ joinPath (d :: ds)) ".." = true
      simp only [hasPrefix, String.data_append, List.isPrefixOf_iff_prefix]
      exact List.prefix_append _ _

/-- Helper: the common component prefix never exceeds the first path. -/
theorem commonLen_le (b : List String) : ∀ t, commonLen b t ≤ b.length := by
  induction b with
  | nil => intro t; cases t <;> simp [commonLen]
  | cons a as ih =>
      intro t
      cases t with
      | nil => simp [commonLen]
      | cons c cs =>
          by_cases h : a = c
          · simpa [commonLen, h] using ih cs
          · simp [commonLen, h]

/-- Helper: full common prefix means list prefix. -/
theorem prefix_of_commonLen_eq (b : List String) :
    ∀ t, commonLen b t = b.length → b <+: t := by
  induction b with
  | nil => intro t _; exact List.nil_prefix
  | cons a as ih =>
      intro t h
      cases t with
      | nil => simp [commonLen] at h
      | cons c cs =>
          by_cases hac : a = c
          · subst hac
            have h2 : commonLen as cs = as.length := by simpa [commonLen] using h
            exact List.cons_prefix_cons.mpr ⟨rfl, ih cs h2⟩
          · simp [commonLen, hac] at h

/-- Helper: a path not componentwise inside the module directory yields a
relative path that starts with "..", so the module never matches. -/
theorem dirMatches_false_of_not_inside (p : String) (m : ModuleInfo)
    (h : ¬ (splitPath m.dir <+: splitPath p)) : dirMatches p m = false := by
  have hlt : commonLen (splitPath m.dir) (splitPath p) < (splitPath m.dir).length := by
    rcases Nat.lt_or_ge (commonLen (splitPath m.dir) (splitPath p))
        (splitPath m.dir).length with hl | hg
    · exact hl
    · exact absurd (prefix_of_commonLen_eq _ _
        (Nat.le_antisymm (commonLen_le _ _) hg)) h
  unfold dirMatches relPath
  obtain ⟨k, hk⟩ : ∃ k, (splitPath m.dir).length -
      commonLen (splitPath m.dir) (splitPath p) = k + 1 :=
    ⟨_, (Nat.succ_pred_eq_of_pos (Nat.sub_pos_of_lt hlt)).symm⟩
  simp only [hk, List.replicate_succ, List.cons_append]
  rw [if_neg (by simp)]
  simp [hasPrefix_dotdot_join]

/-- Helper: behaviour of the RelFile accumulation loop, starting from any
accumulator state: either no module improves on the state, or the final
state is that of a matching module with maximal directory length. -/
theorem relFile_foldl_spec (p : String) (mods : List ModuleInfo) :
    ∀ st : RelFileSt,
      (mods.foldl (relFileStep p) st = st
        ∧ ∀ m ∈ mods, dirMatches p m = true → (m.dir.length : Int) ≤ st.bestDirLen)
      ∨ (∃ m ∈ mods, dirMatches p m = true
          ∧ mods.foldl (relFileStep p) st = ⟨relPath m.dir p, m.pfx, (m.dir.length : Int)⟩
          ∧ st.bestDirLen < (m.dir.length : Int)
          ∧ ∀ m2 ∈ mods, dirMatches p m2 = true →
              (m2.dir.length : Int) ≤ (m.dir.length : Int)) := by
  induction mods with
  | nil => intro st; left; exact ⟨rfl, by simp⟩
  | cons m rest ih =>
      intro st
      rw [List.foldl_cons]
      by_cases hm : hasPrefix (relPath m.dir p) ".."
      · have hmF : dirMatches p m = false := by simp [dirMatches, hm]
        have hstep : relFileStep p st m = st := by simp [relFileStep, hm]
        rw [hstep]
        rcases ih st with ⟨he, hb⟩ | ⟨m3, h3mem, h3m, he, hlt, hmax⟩
        · left
          refine ⟨he, ?_⟩
          intro m2 hm2 hm2T
          rcases List.mem_cons.mp hm2 with rfl | hm2r
          · rw [hmF] at hm2T; cases hm2T
          · exact hb m2 hm2r hm2T
        · right
          refine ⟨m3, List.mem_cons_of_mem _ h3mem, h3m, he, hlt, ?_⟩
          intro m2 hm2 hm2T
          rcases List.mem_cons.mp hm2 with rfl | hm2r
          · rw [hmF] at hm2T; cases hm2T
          · exact hmax m2 hm2r hm2T
      · have hmT : dirMatches p m = true := by simp [dirMatches, hm]
        by_cases hlen : st.bestDirLen < (m.dir.length : Int)
        · have hstep : relFileStep p st m =
              ⟨relPath m.dir p, m.pfx, (m.dir.length : Int)⟩ := by
            simp [relFileStep, hm, hlen]
          rw [hstep]
          rcases ih ⟨relPath m.dir p, m.pfx, (m.dir.length : Int)⟩ with
            ⟨he, hb⟩ | ⟨m3, h3mem, h3m, he, hlt2, hmax⟩
          · right
            refine ⟨m, List.mem_cons_self _ _, hmT, he, hlen, ?_⟩
            intro m2 hm2 hm2T
            rcases List.mem_cons.mp hm2 with rfl | hm2r
            · exact le_refl _
            · exact hb m2 hm2r hm2T
          · right
            refine ⟨m3, List.mem_cons_of_mem _ h3mem, h3m, he, lt_trans hlen hlt2, ?_⟩
            intro m2 hm2 hm2T
            rcases List.mem_cons.mp hm2 with rfl | hm2r
            · exact le_of_lt hlt2
            · exact hmax m2 hm2r hm2T
        · have hstep : relFileStep p st m = st := by
            simp only [relFileStep]
            rw [if_neg (by simp [hm]), if_neg (by omega)]
          rw [hstep]
          rcases ih st with ⟨he, hb⟩ | ⟨m3, h3mem, h3m, he, hlt, hmax⟩
          · left
            refine ⟨he, ?_⟩
            intro m2 hm2 hm2T
            rcases List.mem_cons.mp hm2 with rfl | hm2r
            · omega
            · exact hb m2 hm2r hm2T
          · right
            refine ⟨m3, List.mem_cons_of_mem _ h3mem, h3m, he, hlt, ?_⟩
            intro m2 hm2 hm2T
            rcases List.mem_cons.mp hm2 with rfl | hm2r
            · omega
            · exact hmax m2 hm2r hm2T

/-- C9 counterexample: the path /a/b/..x lies componentwise inside both
module directories /a and /a/b, /a/b is the longer directory, yet
RelFile resolves the path against /a (giving "b/..x") and not against
the longest containing directory /a/b (which would give "..x"), because
the source tests containment with a textual ".." prefix check that the
component "..x" triggers. -/
theorem relFile_longest_dir_counterexample :
    ((splitPath "/a") <+: (splitPath "/a/b/..x")
      ∧ (splitPath "/a/b") <+: (splitPath "/a/b/..x")
      ∧ "/a".length < "/a/b".length)
    ∧ RelFile msC9 "/a/b/..x" = "b/..x"
    ∧ RelFile msC9 "/a/b/..x" ≠ relPath "/a/b" "/a/b/..x" := by
  refine ⟨⟨?_, ?_, ?_⟩, ?_, ?_⟩ <;> decide

/-- C9 (amended): RelFile picks, among the modules whose computed
relative path does not begin with "..", one with the longest directory,
prefixing with the module prefix when non-empty; a path componentwise
outside a module directory never matches that module (but the converse
can fail for components that merely begin with ".."); when no module
matches the result is the empty string. -/
theorem relFile_longest_matching_dir (ms : ModuleSet) (p : String) :
    ((∀ m ∈ ms.modules, dirMatches p m = false) → RelFile ms p = "")
    ∧ (∀ m ∈ ms.modules, ¬ (splitPath m.dir <+: splitPath p) → dirMatches p m = false)
    ∧ ((∃ m ∈ ms.modules, dirMatches p m = true) →
        ∃ m ∈ ms.modules, dirMatches p m = true
          ∧ RelFile ms p =
              (if m.pfx = "" then relPath m.dir p else m.pfx ++ "/" ++ relPath m.dir p)
          ∧ ∀ m2 ∈ ms.modules, dirMatches p m2 = true → m2.dir.length ≤ m.dir.length) := by
  refine ⟨?_, ?_, ?_⟩
  · intro hall
    rcases relFile_foldl_spec p ms.modules ⟨"", "", -1⟩ with ⟨he, _⟩ | ⟨m3, h3mem, h3m, _, _, _⟩
    · unfold RelFile
      rw [he]
      rfl
    · rw [hall m3 h3mem] at h3m; cases h3m
  · intro m _ h
    exact dirMatches_false_of_not_inside p m h
  · rintro ⟨m0, h0mem, h0T⟩
    rcases relFile_foldl_spec p ms.modules ⟨"", "", -1⟩ with
      ⟨_, hb⟩ | ⟨m3, h3mem, h3m, he, _, hmax⟩
    · have := hb m0 h0mem h0T
      simp at this
      omega
    · refine ⟨m3, h3mem, h3m, ?_, ?_⟩
      · unfold RelFile
        rw [he]
        have hge : ¬ ((m3.dir.length : Int) < 0) := by omega
        simp [hge]
      · intro m2 hm2 hm2T
        exact_mod_cast hmax m2 hm2 hm2T

/-- C9 amended witness: a path outside both module directories yields "". -/
theorem relFile_longest_matching_dir_witness :
    RelFile msC9 "/elsewhere/f.go" = "" := by
  exact (relFile_longest_matching_dir msC9 "/elsewhere/f.go").1 (by decide)

/-- C1 counterexample: the final graph of a function calling an external
stub contains the stub as a node of kind function and a metrics record
for it, but the record's cyclomatic complexity is 0 (ComputeFanInOut
creates only minimal fan-in/fan-out records), refuting complexity at
least 1 for every function node. -/
theorem metrics_stub_complexity_counterexample :
    ({ id := "ext::q.F", kind := "function", name := "F"
       props := [("external", PVal.b true), ("full_name", PVal.s "q.F")] } : Node)
      ∈ (ComputeFanInOut gC1).nodes
    ∧ ((ComputeFanInOut gC1).metrics.lookup "ext::q.F").map Metrics.cyclomaticComplexity
        = some 0 := by
  refine ⟨?_, ?_⟩ <;> decide

/-- Helper: association-list lookup at the matching head. -/
theorem lookup_cons_self {α β : Type} [BEq α] [LawfulBEq α] (k : α) (v : β)
    (ms : List (α × β)) : List.lookup k ((k, v) :: ms) = some v := by
  simp [List.lookup]

/-- Helper: association-list lookup skips a non-matching head. -/
theorem lookup_cons_ne {α β : Type} [BEq α] [LawfulBEq α] {k a : α} (v : β)
    (ms : List (α × β)) (h : k ≠ a) :
    List.lookup k ((a, v) :: ms) = List.lookup k ms := by
  have hb : (k == a) = false := beq_eq_false_iff_ne.mpr h
  simp [List.lookup, hb]

/-- Helper: looking up in a value-mapped association list. -/
theorem lookup_mapValues (f : String → Metrics → Metrics)
    (ms : List (String × Metrics)) (k : String) :
    (ms.map (fun kv => (kv.1, f kv.1 kv.2))).lookup k = (ms.lookup k).map (f k) := by
  induction ms with
  | nil => rfl
  | cons kv rest ih =>
      obtain ⟨a, v⟩ := kv
      by_cases h : k = a
      · subst h
        rw [List.map_cons]
        rw [lookup_cons_self, lookup_cons_self]
        rfl
      · rw [List.map_cons]
        rw [lookup_cons_ne _ _ h, lookup_cons_ne _ _ h, ih]

/-- Helper: one unfolding of the insertMinimal loop. -/
theorem insertMinimal_cons (g : CPG) (t : String) (rest : List String)
    (ms : List (String × Metrics)) :
    insertMinimal g (t :: rest) ms =
      insertMinimal g rest
        (if (ms.lookup t).isSome then ms else (t, minRec g t) :: ms) := rfl

/-- Helper: insertMinimal never removes a present key. -/
theorem insertMinimal_isSome_mono (g : CPG) (keys : List String) :
    ∀ ms k, (ms.lookup k).isSome →
      ((insertMinimal g keys ms).lookup k).isSome := by
  induction keys with
  | nil => intro ms k h; exact h
  | cons t rest ih =>
      intro ms k h
      rw [insertMinimal_cons]
      by_cases ht : (ms.lookup t).isSome
      · rw [if_pos ht]
        exact ih ms k h
      · rw [if_neg ht]
        refine ih _ k ?_
        by_cases hk : k = t
        · subst hk
          rw [lookup_cons_self]
          rfl
        · rw [lookup_cons_ne _ _ hk]
          exact h

/-- Helper: insertMinimal leaves present keys unchanged. -/
theorem insertMinimal_lookup_preserve (g : CPG) (keys : List String) :
    ∀ ms k, (ms.lookup k).isSome →
      (insertMinimal g keys ms).lookup k = ms.lookup k := by
  induction keys with
  | nil => intro ms k _; rfl
  | cons t rest ih =>
      intro ms k h
      rw [insertMinimal_cons]
      by_cases ht : (ms.lookup t).isSome
      · rw [if_pos ht]
        exact ih ms k h
      · rw [if_neg ht]
        by_cases hk : k = t
        · subst hk
          exact absurd h ht
        · rw [ih _ k (by rw [lookup_cons_ne _ _ hk]; exact h), lookup_cons_ne _ _ hk]

/-- Helper: insertMinimal makes every listed key present. -/
theorem insertMinimal_mem_isSome (g : CPG) (keys : List String) :
    ∀ ms k, k ∈ keys → ((insertMinimal g keys ms).lookup k).isSome := by
  induction keys with
  | nil => intro ms k h; cases h
  | cons t rest ih =>
      intro ms k hk
      rcases List.mem_cons.mp hk with rfl | hkr
      · rw [insertMinimal_cons]
        by_cases ht : (ms.lookup k).isSome
        · rw [if_pos ht]
          exact insertMinimal_isSome_mono g rest ms k ht
        · rw [if_neg ht]
          refine insertMinimal_isSome_mono g rest _ k ?_
          rw [lookup_cons_self]
          rfl
      · rw [insertMinimal_cons]
        exact ih _ k hkr

/-- Helper: a key in the result of insertMinimal is either the original
binding or a minimal record with complexity 0. -/
theorem insertMinimal_lookup_cases (g : CPG) (keys : List String) :
    ∀ ms k,
      (insertMinimal g keys ms).lookup k = ms.lookup k
      ∨ (insertMinimal g keys ms).lookup k = some (minRec g k) := by
  induction keys with
  | nil => intro ms k; left; rfl
  | cons t rest ih =>
      intro ms k
      rw [insertMinimal_cons]
      by_cases ht : (ms.lookup t).isSome
      · rw [if_pos ht]
        exact ih ms k
      · rw [if_neg ht]
        rcases ih ((t, minRec g t) :: ms) k with he | he
        · by_cases hk : k = t
          · subst hk
            right
            rw [he, lookup_cons_self]
          · left
            rw [he, lookup_cons_ne _ _ hk]
        · right
          exact he

/-- Helper: metricsStep at a skipped file is the identity. -/
theorem metricsStep_skip1 (fl : FuncLookup) (g : CPG) (fo : FuncOcc)
    (h1 : fo.relFile = "" ∨ fo.skipFile) : metricsStep fl g fo = g := by
  unfold metricsStep
  rw [if_pos h1]

/-- Helper: metricsStep at an unresolved position is the identity. -/
theorem metricsStep_skip2 (fl : FuncLookup) (g : CPG) (fo : FuncOcc)
    (h1 : ¬ (fo.relFile = "" ∨ fo.skipFile))
    (h2 : fl.get fo.relFile fo.line fo.col = "") : metricsStep fl g fo = g := by
  simp [metricsStep, h1, h2]

/-- Helper: metricsStep past both guards prepends the computed record. -/
theorem metricsStep_metrics (fl : FuncLookup) (g : CPG) (fo : FuncOcc)
    (h1 : ¬ (fo.relFile = "" ∨ fo.skipFile))
    (h2 : fl.get fo.relFile fo.line fo.col ≠ "") :
    (metricsStep fl g fo).metrics =
      (fl.get fo.relFile fo.line fo.col,
        { functionID := fl.get fo.relFile fo.line fo.col
          cyclomaticComplexity :=
            1 + (match fo.body with | none => 0 | some b => countDecisions b)
          fanIn := 0
          fanOut := 0
          loc := fo.endLine - fo.line + 1
          numParams := countParams fo.funcType }) :: g.metrics := by
  simp [metricsStep, h1, h2, metricsSet]

/-- Helper: metricsStep does not change edges. -/
theorem metricsStep_edges (fl : FuncLookup) (g : CPG) (fo : FuncOcc) :
    (metricsStep fl g fo).edges = g.edges := by
  unfold metricsStep
  by_cases h1 : fo.relFile = "" ∨ fo.skipFile
  · simp [h1]
  · by_cases h2 : fl.get fo.relFile fo.line fo.col = ""
    · simp [h1, h2]
    · simp [h1, h2]

/-- Helper: one unfolding of the ComputeMetrics fold. -/
theorem computeMetrics_cons (fl : FuncLookup) (fo : FuncOcc) (rest : List FuncOcc)
    (g : CPG) :
    ComputeMetrics (fo :: rest) fl g = ComputeMetrics rest fl (metricsStep fl g fo) := rfl

/-- Helper: ComputeMetrics does not change edges. -/
theorem computeMetrics_edges (fl : FuncLookup) (funcs : List FuncOcc) :
    ∀ g, (ComputeMetrics funcs fl g).edges = g.edges := by
  induction funcs with
  | nil => intro g; rfl
  | cons fo rest ih =>
      intro g
      rw [computeMetrics_cons, ih (metricsStep fl g fo), metricsStep_edges]

/-- Helper: metricsStep never removes a present metrics key. -/
theorem metricsStep_isSome_mono (fl : FuncLookup) (g : CPG) (fo : FuncOcc) (k : String)
    (h : (g.metrics.lookup k).isSome) :
    ((metricsStep fl g fo).metrics.lookup k).isSome := by
  by_cases h1 : fo.relFile = "" ∨ fo.skipFile
  · rw [metricsStep_skip1 fl g fo h1]
    exact h
  · by_cases h2 : fl.get fo.relFile fo.line fo.col = ""
    · rw [metricsStep_skip2 fl g fo h1 h2]
      exact h
    · rw [metricsStep_metrics fl g fo h1 h2]
      by_cases hk : k = fl.get fo.relFile fo.line fo.col
      · subst hk
        rw [lookup_cons_self]
        rfl
      · rw [lookup_cons_ne _ _ hk]
        exact h

/-- Helper: the ComputeMetrics fold never removes a present metrics key. -/
theorem computeMetrics_isSome_mono (fl : FuncLookup) (funcs : List FuncOcc) :
    ∀ g k, (g.metrics.lookup k).isSome →
      ((ComputeMetrics funcs fl g).metrics.lookup k).isSome := by
  induction funcs with
  | nil => intro g k h; exact h
  | cons fo rest ih =>
      intro g k h
      rw [computeMetrics_cons]
      exact ih (metricsStep fl g fo) k (metricsStep_isSome_mono fl g fo k h)

/-- Helper: every metrics record produced by the ComputeMetrics fold is
either inherited from the initial store or carries complexity at
least 1. -/
theorem computeMetrics_cc_pos (fl : FuncLookup) (funcs : List FuncOcc) :
    ∀ g k m, ((ComputeMetrics funcs fl g).metrics.lookup k) = some m →
      g.metrics.lookup k = some m ∨ 1 ≤ m.cyclomaticComplexity := by
  induction funcs with
  | nil => intro g k m h; left; exact h
  | cons fo rest ih =>
      intro g k m h
      rw [computeMetrics_cons] at h
      rcases ih (metricsStep fl g fo) k m h with hin | hge
      · by_cases h1 : fo.relFile = "" ∨ fo.skipFile
        · left
          rw [metricsStep_skip1 fl g fo h1] at hin
          exact hin
        · by_cases h2 : fl.get fo.relFile fo.line fo.col = ""
          · left
            rw [metricsStep_skip2 fl g fo h1 h2] at hin
            exact hin
          · rw [metricsStep_metrics fl g fo h1 h2] at hin
            by_cases hk : k = fl.get fo.relFile fo.line fo.col
            · subst hk
              rw [lookup_cons_self] at hin
              cases hin
              right
              simp
            · left
              rw [lookup_cons_ne _ _ hk] at hin
              exact hin
      · right; exact hge

/-- Helper: every occurrence that passes the guards ends with a metrics
entry for its resolved function id. -/
theorem computeMetrics_covers (fl : FuncLookup) (funcs : List FuncOcc) :
    ∀ g fo, fo ∈ funcs → ¬ (fo.relFile = "" ∨ fo.skipFile) →
      fl.get fo.relFile fo.line fo.col ≠ "" →
      (((ComputeMetrics funcs fl g).metrics.lookup
          (fl.get fo.relFile fo.line fo.col))).isSome := by
  induction funcs with
  | nil => intro g fo h; cases h
  | cons fo2 rest ih =>
      intro g fo hmem hg1 hg2
      rw [computeMetrics_cons]
      rcases List.mem_cons.mp hmem with rfl | hmr
      · refine computeMetrics_isSome_mono fl rest (metricsStep fl g fo) _ ?_
        rw [metricsStep_metrics fl g fo hg1 hg2, lookup_cons_self]
        rfl
      · exact ih (metricsStep fl g fo2) fo hmr hg1 hg2

/-- Helper: the metrics table after ComputeFanInOut, written out. -/
theorem computeFanInOut_metrics (g : CPG) :
    (ComputeFanInOut g).metrics =
      insertMinimal g (((callEdges g).map (fun e => e.source)).dedup)
        (insertMinimal g (((callEdges g).map (fun e => e.target)).dedup)
          (g.metrics.map (fun kv => (kv.1, fanUpdate g kv.1 kv.2)))) := rfl

/-- C1 (amended): after ComputeMetrics and ComputeFanInOut, every
function occurrence the AST walk resolved has a metrics record with
cyclomatic complexity at least 1; every source and target of a call edge
(external stubs included) has a metrics record; but records created only
by the fan-in/fan-out pass are minimal and carry cyclomatic
complexity 0. -/
theorem metrics_complexity_after_fanin (funcs : List FuncOcc) (fl : FuncLookup)
    (g : CPG) (hg : g.metrics = []) :
    (∀ fo ∈ funcs, ¬ (fo.relFile = "" ∨ fo.skipFile) →
      fl.get fo.relFile fo.line fo.col ≠ "" →
      ∃ m, ((ComputeFanInOut (ComputeMetrics funcs fl g)).metrics.lookup
              (fl.get fo.relFile fo.line fo.col)) = some m
        ∧ 1 ≤ m.cyclomaticComplexity)
    ∧ (∀ e ∈ g.edges, e.kind = "call" →
        (((ComputeFanInOut (ComputeMetrics funcs fl g)).metrics.lookup e.target).isSome
        ∧ ((ComputeFanInOut (ComputeMetrics funcs fl g)).metrics.lookup e.source).isSome))
    ∧ (∀ t m, ((ComputeMetrics funcs fl g).metrics.lookup t) = none →
        ((ComputeFanInOut (ComputeMetrics funcs fl g)).metrics.lookup t) = some m →
        m.cyclomaticComplexity = 0) := by
  have hedges : (ComputeMetrics funcs fl g).edges = g.edges :=
    computeMetrics_edges fl funcs g
  refine ⟨?_, ?_, ?_⟩
  · intro fo hmem hg1 hg2
    have hsome : ((ComputeMetrics funcs fl g).metrics.lookup
        (fl.get fo.relFile fo.line fo.col)).isSome :=
      computeMetrics_covers fl funcs g fo hmem hg1 hg2
    obtain ⟨m0, hm0⟩ := Option.isSome_iff_exists.mp hsome
    have hcc : 1 ≤ m0.cyclomaticComplexity := by
      rcases computeMetrics_cc_pos fl funcs g _ m0 hm0 with hin | hge
      · rw [hg] at hin; cases hin
      · exact hge
    have h1 : (((ComputeMetrics funcs fl g).metrics.map (fun kv =>
        (kv.1, fanUpdate (ComputeMetrics funcs fl g) kv.1 kv.2))).lookup
          (fl.get fo.relFile fo.line fo.col)).isSome := by
      rw [lookup_mapValues (fanUpdate (ComputeMetrics funcs fl g)), hm0]
      rfl
    have h2 := insertMinimal_isSome_mono (ComputeMetrics funcs fl g)
      (((callEdges (ComputeMetrics funcs fl g)).map (fun e => e.target)).dedup) _
      (fl.get fo.relFile fo.line fo.col) h1
    rw [computeFanInOut_metrics,
      insertMinimal_lookup_preserve _ _ _ _ h2,
      insertMinimal_lookup_preserve _ _ _ _ h1,
      lookup_mapValues (fanUpdate (ComputeMetrics funcs fl g)), hm0]
    exact ⟨_, rfl, hcc⟩
  · intro e hmem hkind
    have hecm : e ∈ callEdges (ComputeMetrics funcs fl g) := by
      unfold callEdges
      rw [hedges]
      exact List.mem_filter.mpr ⟨hmem, by simp [hkind]⟩
    constructor
    · rw [computeFanInOut_metrics]
      refine insertMinimal_isSome_mono _ _ _ e.target ?_
      refine insertMinimal_mem_isSome _ _ _ e.target ?_
      exact List.mem_dedup.mpr (List.mem_map_of_mem _ hecm)
    · rw [computeFanInOut_metrics]
      refine insertMinimal_mem_isSome _ _ _ e.source ?_
      exact List.mem_dedup.mpr (List.mem_map_of_mem _ hecm)
  · intro t m hnone hsome
    rw [computeFanInOut_metrics] at hsome
    have hms1 : (((ComputeMetrics funcs fl g).metrics.map (fun kv =>
        (kv.1, fanUpdate (ComputeMetrics funcs fl g) kv.1 kv.2))).lookup t) = none := by
      rw [lookup_mapValues (fanUpdate (ComputeMetrics funcs fl g)), hnone]
      rfl
    rcases insertMinimal_lookup_cases (ComputeMetrics funcs fl g)
        (((callEdges (ComputeMetrics funcs fl g)).map (fun e => e.source)).dedup) _ t
      with he3 | he3
    · rw [he3] at hsome
      rcases insertMinimal_lookup_cases (ComputeMetrics funcs fl g)
          (((callEdges (ComputeMetrics funcs fl g)).map (fun e => e.target)).dedup) _ t
        with he2 | he2
      · rw [he2, hms1] at hsome; cases hsome
      · rw [he2] at hsome
        cases hsome
        rfl
    · rw [he3] at hsome
      cases hsome
      rfl

/-- C1 amended witness: the single function of the fixture receives a
metrics record after the pipeline. -/
theorem metrics_complexity_after_fanin_witness :
    ((ComputeFanInOut (ComputeMetrics [foW] flW NewCPG)).metrics.lookup
        (FuncLookup.get flW foW.relFile foW.line foW.col)).isSome = true := by
  obtain ⟨m, hm, hcc⟩ := (metrics_complexity_after_fanin [foW] flW NewCPG rfl).1
    foW (List.mem_singleton.mpr rfl) (by decide) (by decide)
  rw [hm]
  rfl

/-- Helper: getD on a replicate of the sentinel. -/
theorem getD_replicate_int (n i : Nat) :
    (List.replicate n (-1 : Int)).getD i (-1) = -1 := by
  induction n generalizing i with
  | zero => cases i <;> rfl
  | succ m ih =>
      cases i with
      | zero => rfl
      | succ j => simp only [List.replicate, List.getD_cons_succ]; exact ih j

/-- Helper: pointwise-equal functions give equal flatMaps. -/
theorem flatMap_congr_left {α β : Type} (l : List α) (f g : α → List β)
    (h : ∀ a ∈ l, f a = g a) : l.flatMap f = l.flatMap g := by
  induction l with
  | nil => rfl
  | cons a rest ih =>
      rw [List.flatMap_cons, List.flatMap_cons, h a (List.mem_cons_self a rest),
        ih (fun b hb => h b (List.mem_cons_of_mem a hb))]

/-- Helper: a flatMap of singletons is a map. -/
theorem flatMap_eq_map_of_single {α β : Type} (l : List α) (f : α → List β) (g : α → β)
    (h : ∀ a ∈ l, f a = [g a]) : l.flatMap f = l.map g := by
  induction l with
  | nil => rfl
  | cons a rest ih =>
      rw [List.flatMap_cons, List.map_cons, h a (List.mem_cons_self a rest),
        ih (fun b hb => h b (List.mem_cons_of_mem a hb))]
      rfl

/-- Helper: over the all-sentinel post-dominator table the CDG walk from
any successor emits exactly one edge and stops. -/
theorem cdgWalk_replicate (funcID : String) (u n fuel v : Nat) :
    cdgWalk (List.replicate n (-1)) funcID u (-1) (fuel + 2) (v : Int) =
      [{ source := BlockID funcID u, target := BlockID funcID v, kind := "cdg" }] := by
  have hv : (v : Int) ≠ -1 := by omega
  show cdgWalk _ _ _ _ (fuel + 1 + 1) _ = _
  rw [cdgWalk]
  rw [if_pos ⟨hv, hv⟩]
  rw [getD_replicate_int, cdgWalk]
  rw [if_neg (by omega)]
  have htn : ((v : Int)).toNat = v := Int.toNat_natCast v
  rw [htn]

/-- C3 counterexample: an infinite-loop function (four blocks, no block
with zero successors) containing a branching block emits no pdom edges
but does emit cdg edges — one from the branching block to each
successor — refuting the claim that no cdg edges are emitted. -/
theorem cdg_no_exit_counterexample :
    (∀ b ∈ blocksC3, b ≠ []) ∧ 2 ≤ blocksC3.length
    ∧ pdomEdgesOf "F" blocksC3 = []
    ∧ cdgEdgesOf "F" blocksC3 =
        [{ source := "F::bb1", target := "F::bb2", kind := "cdg" },
         { source := "F::bb1", target := "F::bb3", kind := "cdg" }] := by
  refine ⟨?_, ?_, ?_, ?_⟩ <;> decide

/-- C3 (amended): for a function with at least two basic blocks and no
exit block, the extractor emits no pdom edges, and its cdg edges are
exactly one edge from each branching block (two or more successors) to
each of its successors; in particular, when no block branches there are
no cdg edges either. -/
theorem cdg_pdom_no_exit (funcID : String) (blocks : List (List Nat))
    (h2 : 2 ≤ blocks.length) (hne : ∀ b ∈ blocks, b ≠ []) :
    pdomEdgesOf funcID blocks = []
    ∧ cdgEdgesOf funcID blocks =
        (List.range blocks.length).flatMap (fun u =>
          if (blocks.getD u []).length < 2 then []
          else (blocks.getD u []).map (fun v =>
            { source := BlockID funcID u, target := BlockID funcID v, kind := "cdg" })) := by
  have hexits : (List.range blocks.length).filter
      (fun i => blocks.getD i [] = []) = [] := by
    rw [List.filter_eq_nil_iff]
    intro i hi
    have hilt : i < blocks.length := List.mem_range.mp hi
    rw [List.getD_eq_getElem blocks [] hilt]
    simpa using hne _ (List.getElem_mem hilt)
  have hpd : postDominators blocks = List.replicate blocks.length (-1) := by
    simp only [postDominators]
    rw [if_pos hexits]
  refine ⟨?_, ?_⟩
  · simp only [pdomEdgesOf, hpd]
    rw [List.filterMap_eq_nil_iff]
    intro i _
    rw [getD_replicate_int]
    norm_num
  · simp only [cdgEdgesOf, hpd]
    refine flatMap_congr_left _ _ _ ?_
    intro u hu
    have hun : u < blocks.length := List.mem_range.mp hu
    by_cases hb : (blocks.getD u []).length < 2
    · rw [if_pos hb, if_pos hb]
    · rw [if_neg hb, if_neg hb]
      refine flatMap_eq_map_of_single _ _ _ ?_
      intro v _
      rw [getD_replicate_int]
      have hfuel : blocks.length + 1 = (blocks.length - 1) + 2 := by omega
      rw [hfuel, cdgWalk_replicate]

/-- C3 amended witness: the concrete no-exit CFG, branching block 1. -/
theorem cdg_pdom_no_exit_witness :
    pdomEdgesOf "G" blocksC3 = [] := by
  exact (cdg_pdom_no_exit "G" blocksC3 (by decide) (by decide)).1

/-- Helper: one loop iteration either appends the decided edge or leaves
the state unchanged. -/
theorem satStep_char (ms : ModuleSet) (pl : PosLookup) (mset : String → Option Sel)
    (st : List Edge × Nat) (im : IfaceMethod) :
    satStep ms pl mset st im =
      match satEdgeFor ms pl mset im with
      | none => st
      | some e => (st.1 ++ [e], st.2 + 1) := by
  simp only [satStep, satEdgeFor]
  cases hm : mset im.name with
  | none => rfl
  | some sel =>
      by_cases h1 : sel.indexLen ≠ 1
      · simp [h1]
      · by_cases h2 : RelFile ms sel.objPos.filename = ""
        · simp [h1, h2]
        · by_cases h3 : RelFile ms im.pos.filename = ""
          · simp [h1, h2, h3]
          · by_cases h4 : pl.get (RelFile ms sel.objPos.filename) sel.objPos.line
                sel.objPos.col ≠ ""
              ∧ pl.get (RelFile ms im.pos.filename) im.pos.line im.pos.col ≠ ""
            · simp [h1, h2, h3, h4]
            · simp [h1, h2, h3, h4]

/-- Helper: the per-base loop is a filterMap over the interface methods
and the localFound counter is its length. -/
theorem satisfiesForBase_char (ms : ModuleSet) (pl : PosLookup)
    (mset : String → Option Sel) :
    ∀ (methods : List IfaceMethod) (st : List Edge × Nat),
      methods.foldl (satStep ms pl mset) st =
        (st.1 ++ methods.filterMap (satEdgeFor ms pl mset),
         st.2 + (methods.filterMap (satEdgeFor ms pl mset)).length) := by
  intro methods
  induction methods with
  | nil => intro st; simp
  | cons im rest ih =>
      intro st
      rw [List.foldl_cons, satStep_char]
      cases he : satEdgeFor ms pl mset im with
      | none => simp [he, ih, List.filterMap_cons]
      | some e =>
          rw [ih]
          simp only [List.filterMap_cons, he]
          refine Prod.ext ?_ ?_
          · simp
          · simp
            omega

/-- C2 counterexample: type T implements I only through its pointer
method set (value method F, pointer method G); the extractor emits the
implements edge and a satisfies_method edge for F from the value set,
then stops, so interface method G — although satisfied by a concrete
method on T — receives no satisfies_method edge at all. -/
theorem satisfies_partial_value_counterexample :
    processTypePair msC2 plC2 cC2 iC2 =
      [{ source := "T", target := "I", kind := "implements" },
       { source := "T.F", target := "I.F", kind := "satisfies_method" }]
    ∧ (iC2.methods.map IfaceMethod.name) = ["F", "G"]
    ∧ (cC2.ptrSet "G").isSome = true
    ∧ ((processTypePair msC2 plC2 cC2 iC2).filter
        (fun e => e.kind == "satisfies_method" && e.target == "I.G")) = [] := by
  refine ⟨?_, ?_, ?_, ?_⟩ <;> decide

/-- C2 (amended): for every emitted implements pair, the
satisfies_method edges come from a single method set — the value set
whenever it yields at least one emitted edge, otherwise the pointer
set — and within the chosen set each interface method yields at most
one edge (exactly one precisely when its lookup is a direct method with
both positions resolvable), with no edge otherwise. -/
theorem satisfies_method_selection (ms : ModuleSet) (pl : PosLookup)
    (c : ConcreteType) (iface : IfaceType) :
    (∀ mset, (satisfiesForBase ms pl mset iface.methods).1 =
        iface.methods.filterMap (satEdgeFor ms pl mset))
    ∧ (emitSatisfiesMethod ms pl c iface =
          iface.methods.filterMap (satEdgeFor ms pl c.valueSet)
        ∨ (iface.methods.filterMap (satEdgeFor ms pl c.valueSet) = []
            ∧ emitSatisfiesMethod ms pl c iface =
                iface.methods.filterMap (satEdgeFor ms pl c.ptrSet)))
    ∧ (iface.methods.length ≠ 0 → (c.implementsValue || c.implementsPtr) = true →
        processTypePair ms pl c iface =
          { source := c.id, target := iface.id, kind := "implements" }
            :: emitSatisfiesMethod ms pl c iface) := by
  have hbase : ∀ mset, satisfiesForBase ms pl mset iface.methods =
      (iface.methods.filterMap (satEdgeFor ms pl mset),
       (iface.methods.filterMap (satEdgeFor ms pl mset)).length) := by
    intro mset
    have hc := satisfiesForBase_char ms pl mset iface.methods ([], 0)
    simpa [satisfiesForBase] using hc
  refine ⟨fun mset => by rw [hbase], ?_, ?_⟩
  · simp only [emitSatisfiesMethod]
    rw [hbase c.valueSet, hbase c.ptrSet]
    by_cases h : 0 < (iface.methods.filterMap (satEdgeFor ms pl c.valueSet)).length
    · left
      simp [h]
    · have hnil : iface.methods.filterMap (satEdgeFor ms pl c.valueSet) = [] :=
        List.length_eq_zero.mp (by omega)
      right
      refine ⟨hnil, ?_⟩
      simp [h, hnil]
  · intro hne himpl
    simp [processTypePair, hne, himpl]

/-- C2 amended witness: the fixture pair, with both guards discharged. -/
theorem satisfies_method_selection_witness :
    processTypePair msC2 plC2 cC2 iC2 =
      { source := "T", target := "I", kind := "implements" }
        :: emitSatisfiesMethod msC2 plC2 cC2 iC2 := by
  exact (satisfies_method_selection msC2 plC2 cC2 iC2).2.2 (by decide) (by decide)

/-- C5: the call-graph builder skips entirely any VTA edge whose callee
is in an in-scope module but unresolved through the FunctionIndex (no
call edge, no stub node), and every node it ever adds is an ext:: stub
for a callee whose package is outside every in-scope module — so no
ext:: node names an in-scope function. -/
theorem stub_only_for_out_of_scope (ms : ModuleSet) (pl : PosLookup) (fl : FuncLookup)
    (stubs : List String) (e : VTAEdge) :
    ((∃ p, e.callee.pkgPath = some p ∧ IsKnownPkg ms p = true) →
      ssaFuncNodeID ms fl e.callee = "" →
      processVTAEdge ms pl fl stubs e = ([], []))
    ∧ (∀ nd ∈ (processVTAEdge ms pl fl stubs e).1,
        ∃ p, e.callee.pkgPath = some p ∧ IsKnownPkg ms p = false
          ∧ nd.id = "ext::" ++ e.callee.funcStr) := by
  constructor
  · rintro ⟨p, hp, hknown⟩ hres
    by_cases hc : ssaFuncNodeID ms fl e.caller = "" <;>
      simp [processVTAEdge, hp, hknown, hres, hc]
  · intro nd hnd
    simp only [processVTAEdge] at hnd
    split at hnd
    · simp at hnd
    · split at hnd
      · simp at hnd
      · split at hnd
        · split at hnd
          · simp at hnd
          · next pkgPath hp =>
              split at hnd
              · simp at hnd
              · next hknown =>
                  split at hnd
                  · simp at hnd
                  · refine ⟨pkgPath, hp, ?_, ?_⟩
                    · simpa using hknown
                    · have hxx := List.mem_singleton.mp (by simpa using hnd)
                      rw [hxx]
        · simp at hnd

/-- C5 witness: an in-scope but unresolved callee produces nothing. -/
theorem stub_only_for_out_of_scope_witness :
    processVTAEdge msC2 plC2 flC5 [] eC5 = ([], []) := by
  exact (stub_only_for_out_of_scope msC2 plC2 flC5 [] eC5).1
    ⟨"example.com/m/sub", rfl, by decide⟩ rfl

/-- Helper: the NULL-safe consecutive-index test. -/
theorem consecIdx_iff (a b : Option Nat) :
    consecIdx a b = true ↔ ∃ i, a = some i ∧ b = some (i + 1) := by
  cases a with
  | none => simp [consecIdx]
  | some i =>
      cases b with
      | none => simp [consecIdx]
      | some j =>
          simp only [consecIdx, beq_iff_eq, Option.some.injEq]
          constructor
          · intro h; exact ⟨i, rfl, h⟩
          · rintro ⟨k, rfl, h⟩; exact h

/-- Helper: the NULL-safe max-equality test. -/
theorem idxEqMax_iff (a b : Option Nat) :
    idxEqMax a b = true ↔ ∃ i, a = some i ∧ b = some i := by
  cases a with
  | none => simp [idxEqMax]
  | some i =>
      cases b with
      | none => simp [idxEqMax]
      | some j =>
          simp only [idxEqMax, beq_iff_eq, Option.some.injEq]
          constructor
          · intro h; exact ⟨i, rfl, h.symm⟩
          · rintro ⟨k, rfl, h⟩; exact h.symm

/-- Helper: membership in the step-1 rows. -/
theorem mem_eogStep1 (es : List DBEdge) (x : DBEdge) :
    x ∈ eogStep1 es ↔ ∃ src ∈ es, ∃ dst ∈ es, ∃ i,
      src.kind = "argument" ∧ dst.kind = "argument" ∧ dst.source = src.source
      ∧ src.argIndex = some i ∧ dst.argIndex = some (i + 1)
      ∧ x = { source := src.target, target := dst.target, kind := "eog"
              argIndex := none, final := false } := by
  constructor
  · intro hx
    rw [eogStep1, List.mem_dedup, List.mem_flatMap] at hx
    obtain ⟨src, hsrc, hx⟩ := hx
    by_cases hk : src.kind = "argument"
    · rw [if_pos (by simp [hk])] at hx
      rw [List.mem_filterMap] at hx
      obtain ⟨dst, hdst, heq⟩ := hx
      by_cases hc : (dst.kind == "argument" && dst.source == src.source
          && consecIdx src.argIndex dst.argIndex) = true
      · rw [if_pos hc] at heq
        cases heq
        rw [Bool.and_eq_true, Bool.and_eq_true, beq_iff_eq, beq_iff_eq] at hc
        obtain ⟨i, hi1, hi2⟩ := (consecIdx_iff _ _).mp hc.2
        exact ⟨src, hsrc, dst, hdst, i, hk, hc.1.1, hc.1.2, hi1, hi2, rfl⟩
      · rw [if_neg hc] at heq
        cases heq
    · rw [if_neg (by simp [hk])] at hx
      cases hx
  · rintro ⟨src, hsrc, dst, hdst, i, hk1, hk2, hs, hi1, hi2, rfl⟩
    rw [eogStep1, List.mem_dedup, List.mem_flatMap]
    refine ⟨src, hsrc, ?_⟩
    rw [if_pos (by simp [hk1])]
    rw [List.mem_filterMap]
    refine ⟨dst, hdst, ?_⟩
    have hcond : (dst.kind == "argument" && dst.source == src.source
        && consecIdx src.argIndex dst.argIndex) = true := by
      rw [Bool.and_eq_true, Bool.and_eq_true, beq_iff_eq, beq_iff_eq]
      exact ⟨⟨hk2, hs⟩, (consecIdx_iff _ _).mpr ⟨i, hi1, hi2⟩⟩
    rw [if_pos hcond]

/-- Helper: membership in the step-2 rows. -/
theorem mem_eogStep2 (es : List DBEdge) (x : DBEdge) :
    x ∈ eogStep2 es ↔ ∃ a ∈ es, ∃ i, a.kind = "argument" ∧ a.argIndex = some i
      ∧ maxArgIdx es a.source = some i
      ∧ x = { source := a.target, target := a.source, kind := "eog"
              argIndex := none, final := true } := by
  constructor
  · intro hx
    rw [eogStep2, List.mem_dedup, List.mem_filterMap] at hx
    obtain ⟨a, ha, heq⟩ := hx
    by_cases hc : (a.kind == "argument" && idxEqMax a.argIndex (maxArgIdx es a.source)) = true
    · rw [if_pos hc] at heq
      cases heq
      rw [Bool.and_eq_true, beq_iff_eq] at hc
      obtain ⟨i, hi1, hi2⟩ := (idxEqMax_iff _ _).mp hc.2
      exact ⟨a, ha, i, hc.1, hi1, hi2, rfl⟩
    · rw [if_neg hc] at heq
      cases heq
  · rintro ⟨a, ha, i, hk, hai, hmx, rfl⟩
    rw [eogStep2, List.mem_dedup, List.mem_filterMap]
    refine ⟨a, ha, ?_⟩
    have hcond : (a.kind == "argument"
        && idxEqMax a.argIndex (maxArgIdx es a.source)) = true := by
      rw [Bool.and_eq_true, beq_iff_eq]
      exact ⟨hk, (idxEqMax_iff _ _).mpr ⟨i, hai, hmx⟩⟩
    rw [if_pos hcond]

/-- Helper: Nat instance of the max? characterisation. -/
theorem nat_max?_eq_some_iff {xs : List Nat} {a : Nat} :
    xs.max? = some a ↔ a ∈ xs ∧ ∀ b ∈ xs, b ≤ a :=
  List.max?_eq_some_iff (fun x => Nat.le_refl x) (fun x y => max_choice x y)
    (fun _ _ _ => Nat.max_le)

/-- C8: after the evaluation-order derivation, a call node whose
argument edges are exactly n edges indexed 0..n-1 with pairwise distinct
targets (and whose argument targets are not shared with other calls, in
a table with no pre-existing eog rows) has exactly one final eog edge —
from the maximum-indexed argument to the call node — and exactly n-1
non-final eog edges among its argument targets, one from each argument
to the next-indexed one. -/
theorem eog_call_law (es : List DBEdge) (c : String) (targ : Nat → String) (n : Nat)
    (hn : 1 ≤ n)
    (hno_eog : ∀ e ∈ es, e.kind ≠ "eog")
    (hargs : ∀ e ∈ es, e.kind = "argument" → e.source = c →
      ∃ i, i < n ∧ e = ⟨c, targ i, "argument", some i, false⟩)
    (hcover : ∀ i, i < n → (⟨c, targ i, "argument", some i, false⟩ : DBEdge) ∈ es)
    (hinj : ∀ i j, i < n → j < n → targ i = targ j → i = j)
    (hsep : ∀ e ∈ es, e.kind = "argument" → e.source ≠ c →
      ∀ i, i < n → e.target ≠ targ i) :
    ((computeEOG es).filter (fun e => e.kind == "eog" && e.final && e.target == c))
      = [⟨targ (n - 1), c, "eog", none, true⟩]
    ∧ (∀ i, i + 1 < n →
        (⟨targ i, targ (i + 1), "eog", none, false⟩ : DBEdge) ∈ computeEOG es)
    ∧ ((computeEOG es).filter (fun e =>
        e.kind == "eog" && !e.final
          && decide (e.source ∈ (List.range n).map targ))).length = n - 1 := by
  have hkind1 : ∀ x ∈ eogStep1 es, x.kind = "eog" ∧ x.final = false := by
    intro x hx
    obtain ⟨_, _, _, _, _, _, _, _, _, _, rfl⟩ := (mem_eogStep1 es x).mp hx
    exact ⟨rfl, rfl⟩
  have hargs1 : ∀ e ∈ es ++ eogStep1 es, e.kind = "argument" → e ∈ es := by
    intro e he hk
    rcases List.mem_append.mp he with h | h
    · exact h
    · have hke := (hkind1 e h).1
      rw [hk] at hke
      exact absurd hke (by decide)
  have hmaxc : maxArgIdx (es ++ eogStep1 es) c = some (n - 1) := by
    unfold maxArgIdx
    rw [List.filterMap_append]
    have h2 : (eogStep1 es).filterMap (fun e =>
        if e.kind == "argument" && e.source == c then e.argIndex else none) = [] := by
      rw [List.filterMap_eq_nil_iff]
      intro e he
      rw [if_neg (by simp [(hkind1 e he).1])]
    rw [h2, List.append_nil, nat_max?_eq_some_iff]
    constructor
    · rw [List.mem_filterMap]
      exact ⟨⟨c, targ (n - 1), "argument", some (n - 1), false⟩,
        hcover (n - 1) (by omega), by simp⟩
    · intro b hb
      rw [List.mem_filterMap] at hb
      obtain ⟨e, he, heq⟩ := hb
      by_cases hcnd : (e.kind == "argument" && e.source == c) = true
      · rw [if_pos hcnd] at heq
        rw [Bool.and_eq_true, beq_iff_eq, beq_iff_eq] at hcnd
        obtain ⟨i, hi, rfl⟩ := hargs e he hcnd.1 hcnd.2
        have hbi : b = i := by
          have : some i = some b := heq
          cases this
          rfl
        omega
      · rw [if_neg hcnd] at heq
        cases heq
  have hfa : computeEOG es = (es ++ eogStep1 es) ++ eogStep2 (es ++ eogStep1 es) := rfl
  refine ⟨?_, ?_, ?_⟩
  · rw [hfa, List.filter_append, List.filter_append]
    have f1 : es.filter (fun e => e.kind == "eog" && e.final && e.target == c) = [] := by
      rw [List.filter_eq_nil_iff]
      intro e he
      simp [hno_eog e he]
    have f2 : (eogStep1 es).filter
        (fun e => e.kind == "eog" && e.final && e.target == c) = [] := by
      rw [List.filter_eq_nil_iff]
      intro e he
      simp [(hkind1 e he).2]
    have f3 : (eogStep2 (es ++ eogStep1 es)).filter
        (fun e => e.kind == "eog" && e.final && e.target == c)
        = [⟨targ (n - 1), c, "eog", none, true⟩] := by
      refine List.Perm.eq_singleton ?_
      refine (List.perm_ext_iff_of_nodup
        ((List.nodup_dedup _).filter _) (by simp)).mpr ?_
      intro x
      simp only [List.mem_singleton]
      constructor
      · intro hx
        obtain ⟨hx2, hpred⟩ := List.mem_filter.mp hx
        obtain ⟨a, ha1, i, hak, hai, hamx, rfl⟩ := (mem_eogStep2 _ x).mp hx2
        have hsc : a.source = c := by
          simp only [Bool.and_eq_true, beq_iff_eq] at hpred
          exact hpred.2
        rw [hsc] at hamx
        rw [hmaxc] at hamx
        have hin1 : i = n - 1 := by
          cases hamx
          rfl
        obtain ⟨j, hj, hae⟩ := hargs a (hargs1 a ha1 hak) hak hsc
        have hji : j = i := by
          rw [hae] at hai
          cases hai
          rfl
        rw [hae]
        rw [hji, hin1]
      · rintro rfl
        refine List.mem_filter.mpr ⟨?_, by simp⟩
        refine (mem_eogStep2 _ _).mpr
          ⟨⟨c, targ (n - 1), "argument", some (n - 1), false⟩,
            List.mem_append_left _ (hcover (n - 1) (by omega)), n - 1, rfl, rfl, ?_, rfl⟩
        exact hmaxc
    rw [f1, f2, f3]
    rfl
  · intro i hi
    rw [hfa]
    refine List.mem_append_left _ (List.mem_append_right _ ?_)
    refine (mem_eogStep1 es _).mpr
      ⟨⟨c, targ i, "argument", some i, false⟩, hcover i (by omega),
       ⟨c, targ (i + 1), "argument", some (i + 1), false⟩, hcover (i + 1) hi,
       i, rfl, rfl, rfl, rfl, rfl, rfl⟩
  · rw [hfa, List.filter_append, List.filter_append]
    have g1 : es.filter (fun e => e.kind == "eog" && !e.final
        && decide (e.source ∈ (List.range n).map targ)) = [] := by
      rw [List.filter_eq_nil_iff]
      intro e he
      simp [hno_eog e he]
    have g3 : (eogStep2 (es ++ eogStep1 es)).filter (fun e => e.kind == "eog" && !e.final
        && decide (e.source ∈ (List.range n).map targ)) = [] := by
      rw [List.filter_eq_nil_iff]
      intro e he
      obtain ⟨_, _, _, _, _, _, rfl⟩ := (mem_eogStep2 _ e).mp he
      simp
    rw [g1, g3, List.nil_append, List.append_nil]
    have hperm : List.Perm
        ((eogStep1 es).filter (fun e => e.kind == "eog" && !e.final
          && decide (e.source ∈ (List.range n).map targ)))
        ((List.range (n - 1)).map
          (fun i => (⟨targ i, targ (i + 1), "eog", none, false⟩ : DBEdge))) := by
      refine (List.perm_ext_iff_of_nodup ((List.nodup_dedup _).filter _) ?_).mpr ?_
      · refine List.Nodup.map_on ?_ (List.nodup_range (n - 1))
        intro x hx y hy hxy
        have hx2 : x < n - 1 := List.mem_range.mp hx
        have hy2 : y < n - 1 := List.mem_range.mp hy
        have := congrArg DBEdge.source hxy
        exact hinj x y (by omega) (by omega) this
      · intro x
        constructor
        · intro hx
          obtain ⟨hx1, hpred⟩ := List.mem_filter.mp hx
          obtain ⟨src, hs, dst, hd, i, hsk, hdk, hds, hsi, hdi, rfl⟩ :=
            (mem_eogStep1 es x).mp hx1
          simp only [Bool.and_eq_true, decide_eq_true_eq, List.mem_map,
            List.mem_range] at hpred
          obtain ⟨k, hk, hkt⟩ := hpred.2
          by_cases hsc : src.source = c
          · obtain ⟨j, hj, hse⟩ := hargs src hs hsk hsc
            have hji : j = i := by
              rw [hse] at hsi
              cases hsi
              rfl
            have hdsc : dst.source = c := by rw [hds, hsc]
            obtain ⟨m, hm, hde⟩ := hargs dst hd hdk hdsc
            have hmi : m = i + 1 := by
              rw [hde] at hdi
              cases hdi
              rfl
            rw [List.mem_map]
            refine ⟨i, List.mem_range.mpr (by omega), ?_⟩
            rw [hse, hde]
            rw [hji, hmi]
          · exact absurd hkt.symm (hsep src hs hsk hsc k hk)
        · intro hx
          rw [List.mem_map] at hx
          obtain ⟨i, hir, rfl⟩ := hx
          have hilt : i < n - 1 := List.mem_range.mp hir
          refine List.mem_filter.mpr ⟨?_, ?_⟩
          · refine (mem_eogStep1 es _).mpr
              ⟨⟨c, targ i, "argument", some i, false⟩, hcover i (by omega),
               ⟨c, targ (i + 1), "argument", some (i + 1), false⟩,
               hcover (i + 1) (by omega), i, rfl, rfl, rfl, rfl, rfl, rfl⟩
          · simp only [Bool.and_eq_true, decide_eq_true_eq, List.mem_map,
              List.mem_range]
            exact ⟨⟨rfl, rfl⟩, i, by omega, rfl⟩
    rw [hperm.length_eq, List.length_map, List.length_range]

/-- C8 witness: a two-argument call f(A0, A1) receives exactly the final
eog edge from A1 to the call node. -/
theorem eog_call_law_witness :
    ((computeEOG esW8).filter (fun e => e.kind == "eog" && e.final && e.target == "CALL"))
      = [⟨"A1", "CALL", "eog", none, true⟩] := by
  have h := eog_call_law esW8 "CALL" targW8 2 (by omega)
    (by intro e he; simp only [esW8, List.mem_cons, List.mem_singleton] at he
        rcases he with rfl | rfl | h
        · decide
        · decide
        · cases h)
    (by intro e he hk hs; simp only [esW8, List.mem_cons, List.mem_singleton] at he
        rcases he with rfl | rfl | h
        · exact ⟨0, by omega, rfl⟩
        · exact ⟨1, by omega, rfl⟩
        · cases h)
    (by intro i hi
        interval_cases i
        · decide
        · decide)
    (by intro i j hi hj heq
        interval_cases i <;> interval_cases j <;> revert heq <;> decide)
    (by intro e he hk hs; simp only [esW8, List.mem_cons, List.mem_singleton] at he
        rcases he with rfl | rfl | h
        · exact absurd rfl hs
        · exact absurd rfl hs
        · cases h)
  exact h.1

/-- Helper: recording a send never touches the visited set. -/
theorem recordSend_visited {n : Nat} (ms : ModuleSet) (pl : PosLookup)
    (p : Option Position) (st : ChanSt n) :
    (recordSend ms pl p st).visited = st.visited := by
  unfold recordSend
  cases hi : instrPosResolve ms p with
  | none => rfl
  | some t =>
      obtain ⟨rel, line, col⟩ := t
      by_cases hid : pl.get rel line col = "" <;> simp [hid]

/-- Helper: recording a receive never touches the visited set. -/
theorem recordRecv_visited {n : Nat} (ms : ModuleSet) (pl : PosLookup)
    (p : Option Position) (st : ChanSt n) :
    (recordRecv ms pl p st).visited = st.visited := by
  unfold recordRecv
  cases hi : instrPosResolve ms p with
  | none => rfl
  | some t =>
      obtain ⟨rel, line, col⟩ := t
      by_cases hid : pl.get rel line col = "" <;> simp [hid]

/-- Helper: the select fold never touches the visited set. -/
theorem selFold_visited {n : Nat} (ms : ModuleSet) (pl : PosLookup) (val : Fin n)
    (states : List (SelectState (Fin n))) :
    ∀ st : ChanSt n, (states.foldl (selStep ms pl val) st).visited = st.visited := by
  induction states with
  | nil => intro st; rfl
  | cons sel rest ih =>
      intro st
      rw [List.foldl_cons, ih]
      unfold selStep
      by_cases hc : sel.chan = val
      · rw [if_pos hc]
        by_cases hsnd : sel.isSend
        · rw [if_pos hsnd, recordSend_visited]
        · rw [if_neg hsnd, recordRecv_visited]
      · rw [if_neg hc]

/-- Helper: the bindings loop only grows the visited set. -/
theorem goBindings_visited_sub {n : Nat} (ms : ModuleSet) (pl : PosLookup)
    (g : SSAGraph n) (fuel : Nat)
    (hCR : ∀ (val : Fin n) (st st2 : ChanSt n),
      chanFollowRefsF ms pl g fuel val st = some st2 → st.visited ⊆ st2.visited) :
    ∀ (bindings freeVars : List (Fin n)) (i : Nat) (val : Fin n) (st st2 : ChanSt n),
      goBindings ms pl g fuel val bindings freeVars i st = some st2 →
      st.visited ⊆ st2.visited := by
  intro bindings
  induction bindings with
  | nil =>
      intro freeVars i val st st2 h
      unfold goBindings at h
      cases h
      exact Finset.Subset.refl _
  | cons b rest ih =>
      intro freeVars i val st st2 h
      unfold goBindings at h
      by_cases hc : b = val ∧ i < freeVars.length
      · rw [dif_pos hc] at h
        cases hcf : chanFollowRefsF ms pl g fuel (freeVars.get ⟨i, hc.2⟩) st with
        | none => rw [hcf] at h; cases h
        | some stm =>
            rw [hcf] at h
            exact (hCR _ _ _ hcf).trans (ih freeVars (i + 1) val stm st2 h)
      · rw [dif_neg hc] at h
        exact ih freeVars (i + 1) val st st2 h

/-- Helper: the argument loop only grows the visited set. -/
theorem goArgs_visited_sub {n : Nat} (ms : ModuleSet) (pl : PosLookup)
    (g : SSAGraph n) (fuel : Nat)
    (hCR : ∀ (val : Fin n) (st st2 : ChanSt n),
      chanFollowRefsF ms pl g fuel val st = some st2 → st.visited ⊆ st2.visited) :
    ∀ (args params : List (Fin n)) (i : Nat) (val : Fin n) (st st2 : ChanSt n),
      goArgs ms pl g fuel val args params i st = some st2 →
      st.visited ⊆ st2.visited := by
  intro args
  induction args with
  | nil =>
      intro params i val st st2 h
      unfold goArgs at h
      cases h
      exact Finset.Subset.refl _
  | cons a rest ih =>
      intro params i val st st2 h
      unfold goArgs at h
      by_cases hc : a = val ∧ i < params.length
      · rw [dif_pos hc] at h
        cases hcf : chanFollowRefsF ms pl g fuel (params.get ⟨i, hc.2⟩) st with
        | none => rw [hcf] at h; cases h
        | some stm =>
            rw [hcf] at h
            exact (hCR _ _ _ hcf).trans (ih params (i + 1) val stm st2 h)
      · rw [dif_neg hc] at h
        exact ih params (i + 1) val st st2 h

/-- Helper: following a call only grows the visited set. -/
theorem callArgs_visited_sub {n : Nat} (ms : ModuleSet) (pl : PosLookup)
    (g : SSAGraph n) (fuel : Nat)
    (hCR : ∀ (val : Fin n) (st st2 : ChanSt n),
      chanFollowRefsF ms pl g fuel val st = some st2 → st.visited ⊆ st2.visited)
    (val : Fin n) (common : CallCommon (Fin n)) (st st2 : ChanSt n)
    (h : chanFollowCallArgsF ms pl g fuel val common st = some st2) :
    st.visited ⊆ st2.visited := by
  unfold chanFollowCallArgsF at h
  by_cases hinv : common.isInvoke = true
  · rw [if_pos hinv] at h
    cases h
    exact Finset.Subset.refl _
  · rw [if_neg hinv] at h
    cases hsc : common.staticCallee with
    | none => rw [hsc] at h; cases h; exact Finset.Subset.refl _
    | some params =>
        rw [hsc] at h
        exact goArgs_visited_sub ms pl g fuel hCR common.args params 0 val st st2 h

/-- Helper: one referrer case only grows the visited set. -/
theorem handleRef_visited_sub {n : Nat} (ms : ModuleSet) (pl : PosLookup)
    (g : SSAGraph n) (fuel : Nat)
    (hCR : ∀ (val : Fin n) (st st2 : ChanSt n),
      chanFollowRefsF ms pl g fuel val st = some st2 → st.visited ⊆ st2.visited)
    (val : Fin n) (r : SSAInstr (Fin n)) (st st2 : ChanSt n)
    (h : handleRef ms pl g fuel val r st = some st2) :
    st.visited ⊆ st2.visited := by
  cases r with
  | send chan pos =>
      unfold handleRef at h
      by_cases hc : chan = val
      · rw [if_pos hc] at h
        cases h
        rw [recordSend_visited]
      · rw [if_neg hc] at h
        cases h
        exact Finset.Subset.refl _
  | unop tag x result pos =>
      unfold handleRef at h
      cases tag with
      | arrow =>
          by_cases hc : x = val
          · rw [if_pos hc] at h
            cases h
            rw [recordRecv_visited]
          · rw [if_neg hc] at h
            cases h
            exact Finset.Subset.refl _
      | mul => exact hCR _ _ _ h
      | otherOp => cases h; exact Finset.Subset.refl _
  | selectInstr states =>
      unfold handleRef at h
      cases h
      rw [selFold_visited]
  | callInstr common result =>
      unfold handleRef at h
      cases hca : chanFollowCallArgsF ms pl g fuel val common st with
      | none => rw [hca] at h; cases h
      | some stm =>
          rw [hca] at h
          exact (callArgs_visited_sub ms pl g fuel hCR val common st stm hca).trans
            (hCR _ _ _ h)
  | goInstr common =>
      unfold handleRef at h
      exact callArgs_visited_sub ms pl g fuel hCR val common st st2 h
  | deferInstr common =>
      unfold handleRef at h
      exact callArgs_visited_sub ms pl g fuel hCR val common st st2 h
  | phi result =>
      unfold handleRef at h
      exact hCR _ _ _ h
  | makeClosure fnOk bindings freeVars =>
      unfold handleRef at h
      by_cases hok : fnOk = true
      · rw [if_pos hok] at h
        exact goBindings_visited_sub ms pl g fuel hCR bindings freeVars 0 val st st2 h
      · rw [if_neg hok] at h
        cases h
        exact Finset.Subset.refl _
  | store valStored addr =>
      unfold handleRef at h
      by_cases hc : valStored = val
      · rw [if_pos hc] at h
        exact hCR _ _ _ h
      · rw [if_neg hc] at h
        cases h
        exact Finset.Subset.refl _
  | otherValue result =>
      unfold handleRef at h
      exact hCR _ _ _ h
  | nonValue =>
      unfold handleRef at h
      cases h
      exact Finset.Subset.refl _

/-- Helper: the referrer loop only grows the visited set. -/
theorem goRefs_visited_sub {n : Nat} (ms : ModuleSet) (pl : PosLookup)
    (g : SSAGraph n) (fuel : Nat)
    (hCR : ∀ (val : Fin n) (st st2 : ChanSt n),
      chanFollowRefsF ms pl g fuel val st = some st2 → st.visited ⊆ st2.visited) :
    ∀ (refs : List (SSAInstr (Fin n))) (val : Fin n) (st st2 : ChanSt n),
      goRefs ms pl g fuel val refs st = some st2 → st.visited ⊆ st2.visited := by
  intro refs
  induction refs with
  | nil =>
      intro val st st2 h
      unfold goRefs at h
      cases h
      exact Finset.Subset.refl _
  | cons r rest ih =>
      intro val st st2 h
      unfold goRefs at h
      cases hh : handleRef ms pl g fuel val r st with
      | none => rw [hh] at h; cases h
      | some stm =>
          rw [hh] at h
          exact (handleRef_visited_sub ms pl g fuel hCR val r st stm hh).trans
            (ih val stm st2 h)

/-- Helper: the follower only grows the visited set. -/
theorem chanFollowRefsF_visited_sub {n : Nat} (ms : ModuleSet) (pl : PosLookup)
    (g : SSAGraph n) :
    ∀ (fuel : Nat) (val : Fin n) (st st2 : ChanSt n),
      chanFollowRefsF ms pl g fuel val st = some st2 → st.visited ⊆ st2.visited := by
  intro fuel
  induction fuel with
  | zero =>
      intro val st st2 h
      unfold chanFollowRefsF at h
      cases h
  | succ f ih =>
      intro val st st2 h
      unfold chanFollowRefsF at h
      by_cases hv : val ∈ st.visited
      · rw [if_pos hv] at h
        cases h
        exact Finset.Subset.refl _
      · rw [if_neg hv] at h
        cases hr : g.referrers val with
        | none =>
            rw [hr] at h
            cases h
            exact Finset.subset_insert _ _
        | some refs =>
            rw [hr] at h
            exact (Finset.subset_insert _ _).trans
              (goRefs_visited_sub ms pl g f ih refs val _ st2 h)

/-- Helper: the bindings loop succeeds when the follower succeeds below
the fuel bound. -/
theorem goBindings_isSome {n : Nat} (ms : ModuleSet) (pl : PosLookup)
    (g : SSAGraph n) (fuel : Nat)
    (hCR : ∀ (val : Fin n) (st st2 : ChanSt n),
      chanFollowRefsF ms pl g fuel val st = some st2 → st.visited ⊆ st2.visited)
    (hS : ∀ (val : Fin n) (st : ChanSt n), n - st.visited.card < fuel →
      (chanFollowRefsF ms pl g fuel val st).isSome) :
    ∀ (bindings freeVars : List (Fin n)) (i : Nat) (val : Fin n) (st : ChanSt n),
      n - st.visited.card < fuel →
      (goBindings ms pl g fuel val bindings freeVars i st).isSome := by
  intro bindings
  induction bindings with
  | nil =>
      intro freeVars i val st _
      unfold goBindings
      rfl
  | cons b rest ih =>
      intro freeVars i val st hlt
      unfold goBindings
      by_cases hc : b = val ∧ i < freeVars.length
      · rw [dif_pos hc]
        obtain ⟨stm, hstm⟩ := Option.isSome_iff_exists.mp
          (hS (freeVars.get ⟨i, hc.2⟩) st hlt)
        rw [hstm]
        refine ih freeVars (i + 1) val stm ?_
        have hsub := hCR _ _ _ hstm
        have := Finset.card_le_card hsub
        omega
      · rw [dif_neg hc]
        exact ih freeVars (i + 1) val st hlt

/-- Helper: the argument loop succeeds when the follower succeeds below
the fuel bound. -/
theorem goArgs_isSome {n : Nat} (ms : ModuleSet) (pl : PosLookup)
    (g : SSAGraph n) (fuel : Nat)
    (hCR : ∀ (val : Fin n) (st st2 : ChanSt n),
      chanFollowRefsF ms pl g fuel val st = some st2 → st.visited ⊆ st2.visited)
    (hS : ∀ (val : Fin n) (st : ChanSt n), n - st.visited.card < fuel →
      (chanFollowRefsF ms pl g fuel val st).isSome) :
    ∀ (args params : List (Fin n)) (i : Nat) (val : Fin n) (st : ChanSt n),
      n - st.visited.card < fuel →
      (goArgs ms pl g fuel val args params i st).isSome := by
  intro args
  induction args with
  | nil =>
      intro params i val st _
      unfold goArgs
      rfl
  | cons a rest ih =>
      intro params i val st hlt
      unfold goArgs
      by_cases hc : a = val ∧ i < params.length
      · rw [dif_pos hc]
        obtain ⟨stm, hstm⟩ := Option.isSome_iff_exists.mp
          (hS (params.get ⟨i, hc.2⟩) st hlt)
        rw [hstm]
        refine ih params (i + 1) val stm ?_
        have hsub := hCR _ _ _ hstm
        have := Finset.card_le_card hsub
        omega
      · rw [dif_neg hc]
        exact ih params (i + 1) val st hlt

/-- Helper: following a call succeeds below the fuel bound. -/
theorem callArgs_isSome {n : Nat} (ms : ModuleSet) (pl : PosLookup)
    (g : SSAGraph n) (fuel : Nat)
    (hCR : ∀ (val : Fin n) (st st2 : ChanSt n),
      chanFollowRefsF ms pl g fuel val st = some st2 → st.visited ⊆ st2.visited)
    (hS : ∀ (val : Fin n) (st : ChanSt n), n - st.visited.card < fuel →
      (chanFollowRefsF ms pl g fuel val st).isSome)
    (val : Fin n) (common : CallCommon (Fin n)) (st : ChanSt n)
    (hlt : n - st.visited.card < fuel) :
    (chanFollowCallArgsF ms pl g fuel val common st).isSome := by
  unfold chanFollowCallArgsF
  by_cases hinv : common.isInvoke = true
  · rw [if_pos hinv]
    rfl
  · rw [if_neg hinv]
    cases hsc : common.staticCallee with
    | none => rfl
    | some params => exact goArgs_isSome ms pl g fuel hCR hS common.args params 0 val st hlt

/-- Helper: one referrer case succeeds below the fuel bound. -/
theorem handleRef_isSome {n : Nat} (ms : ModuleSet) (pl : PosLookup)
    (g : SSAGraph n) (fuel : Nat)
    (hCR : ∀ (val : Fin n) (st st2 : ChanSt n),
      chanFollowRefsF ms pl g fuel val st = some st2 → st.visited ⊆ st2.visited)
    (hS : ∀ (val : Fin n) (st : ChanSt n), n - st.visited.card < fuel →
      (chanFollowRefsF ms pl g fuel val st).isSome)
    (val : Fin n) (r : SSAInstr (Fin n)) (st : ChanSt n)
    (hlt : n - st.visited.card < fuel) :
    (handleRef ms pl g fuel val r st).isSome := by
  cases r with
  | send chan pos =>
      unfold handleRef
      by_cases hc : chan = val
      · rw [if_pos hc]; rfl
      · rw [if_neg hc]; rfl
  | unop tag x result pos =>
      unfold handleRef
      cases tag with
      | arrow =>
          by_cases hc : x = val
          · rw [if_pos hc]; rfl
          · rw [if_neg hc]; rfl
      | mul => exact hS result st hlt
      | otherOp => rfl
  | selectInstr states =>
      unfold handleRef
      rfl
  | callInstr common result =>
      unfold handleRef
      obtain ⟨stm, hstm⟩ := Option.isSome_iff_exists.mp
        (callArgs_isSome ms pl g fuel hCR hS val common st hlt)
      rw [hstm]
      refine hS result stm ?_
      have hsub := callArgs_visited_sub ms pl g fuel hCR val common st stm hstm
      have := Finset.card_le_card hsub
      omega
  | goInstr common =>
      unfold handleRef
      exact callArgs_isSome ms pl g fuel hCR hS val common st hlt
  | deferInstr common =>
      unfold handleRef
      exact callArgs_isSome ms pl g fuel hCR hS val common st hlt
  | phi result =>
      unfold handleRef
      exact hS result st hlt
  | makeClosure fnOk bindings freeVars =>
      unfold handleRef
      by_cases hok : fnOk = true
      · rw [if_pos hok]
        exact goBindings_isSome ms pl g fuel hCR hS bindings freeVars 0 val st hlt
      · rw [if_neg hok]
        rfl
  | store valStored addr =>
      unfold handleRef
      by_cases hc : valStored = val
      · rw [if_pos hc]
        exact hS addr st hlt
      · rw [if_neg hc]
        rfl
  | otherValue result =>
      unfold handleRef
      exact hS result st hlt
  | nonValue =>
      unfold handleRef
      rfl

/-- Helper: the referrer loop succeeds below the fuel bound. -/
theorem goRefs_isSome {n : Nat} (ms : ModuleSet) (pl : PosLookup)
    (g : SSAGraph n) (fuel : Nat)
    (hCR : ∀ (val : Fin n) (st st2 : ChanSt n),
      chanFollowRefsF ms pl g fuel val st = some st2 → st.visited ⊆ st2.visited)
    (hS : ∀ (val : Fin n) (st : ChanSt n), n - st.visited.card < fuel →
      (chanFollowRefsF ms pl g fuel val st).isSome) :
    ∀ (refs : List (SSAInstr (Fin n))) (val : Fin n) (st : ChanSt n),
      n - st.visited.card < fuel →
      (goRefs ms pl g fuel val refs st).isSome := by
  intro refs
  induction refs with
  | nil =>
      intro val st _
      unfold goRefs
      rfl
  | cons r rest ih =>
      intro val st hlt
      unfold goRefs
      obtain ⟨stm, hstm⟩ := Option.isSome_iff_exists.mp
        (handleRef_isSome ms pl g fuel hCR hS val r st hlt)
      rw [hstm]
      refine ih val stm ?_
      have hsub := handleRef_visited_sub ms pl g fuel hCR val r st stm hstm
      have := Finset.card_le_card hsub
      omega

/-- Helper: the follower succeeds whenever the fuel exceeds the number
of not-yet-visited values. -/
theorem chanFollowRefsF_isSome {n : Nat} (ms : ModuleSet) (pl : PosLookup)
    (g : SSAGraph n) :
    ∀ (fuel : Nat) (val : Fin n) (st : ChanSt n),
      n - st.visited.card < fuel → (chanFollowRefsF ms pl g fuel val st).isSome := by
  intro fuel
  induction fuel with
  | zero => intro val st hlt; omega
  | succ f ih =>
      intro val st hlt
      unfold chanFollowRefsF
      by_cases hv : val ∈ st.visited
      · rw [if_pos hv]
        rfl
      · rw [if_neg hv]
        cases hr : g.referrers val with
        | none => rfl
        | some refs =>
            refine goRefs_isSome ms pl g f (chanFollowRefsF_visited_sub ms pl g f) ih
              refs val _ ?_
            have hcard : (insert val st.visited).card = st.visited.card + 1 :=
              Finset.card_insert_of_not_mem hv
            have hle : (insert val st.visited).card ≤ n := by
              have := Finset.card_le_univ (insert val st.visited)
              simpa using this
            show n - (insert val st.visited).card < f
            omega

/-- C10: chanFollowRefs terminates on every finite SSA value graph — the
visited set lets each value be expanded at most once, so fuel exceeding
the size of the value universe always suffices, whatever cycles the
referrer relation contains. -/
theorem chanFollowRefs_terminates {n : Nat} (ms : ModuleSet) (pl : PosLookup)
    (g : SSAGraph n) (val : Fin n) (st : ChanSt n) :
    (chanFollowRefsF ms pl g (n + 1) val st).isSome = true := by
  refine chanFollowRefsF_isSome ms pl g (n + 1) val st ?_
  omega

end CPGSpec
